import Mathlib

/-!
Verification of the novelint sources (src/lex.rs, src/exprs.rs, src/parse.rs,
src/main.rs) against their natural-language specification.

Shallow embedding conventions:
* Rust `Vec<T>` becomes `List T`; `HashMap<K,V>` becomes an association list.
* `char::to_lowercase`, `char::is_numeric`, `char::is_whitespace` are embedded
  as `Char.toLower`, `Char.isDigit`, `Char.isWhitespace`; these agree on ASCII,
  which covers the reserved vocabulary and every input a claim mentions.
* `std::process::exit` / `die!` in the compiler becomes an `Except` error.
* A Rust panic (out-of-bounds index, `unreachable!()`, `unwrap` on `None`)
  becomes an explicit `panic` outcome constructor.
-/

namespace Novelint

/-! ## Lexer (src/lex.rs) -/

/-- `fn is_item(item_chars: &[char], src_chars: &[char]) -> bool` from lex.rs:
case-insensitive prefix comparison. -/
def is_item (item_chars src_chars : List Char) : Bool :=
  decide (item_chars.length ≤ src_chars.length) &&
    (item_chars.zip src_chars).all fun p => p.1.toLower == p.2.toLower

/-- `const RESERVED_CHARS` from lex.rs. -/
def RESERVED_CHARS : List Char :=
  ['+', '-', '*', '/', '%', '"', '<', '>', '!', '=', ';', ',']

/-- `fn is_ident_char(c: char) -> bool` from lex.rs. -/
def is_ident_char (c : Char) : Bool :=
  !c.isWhitespace && !RESERVED_CHARS.contains c

/-- `fn is_sep(c: char) -> bool` from lex.rs. -/
def is_sep (c : Char) : Bool :=
  c.isWhitespace || c == ';'

/-- `enum Keywords` from lex.rs. (`with` and `true`/`false`/`end` collide with
Lean keywords, hence the trailing underscores.) -/
inductive Keywords where
  | asMut | be | to | dice | with_ | face | true_ | false_
  deriving DecidableEq, Repr

/-- `Keywords::as_str`. -/
def Keywords.asStr : Keywords → String
  | .asMut => "asmut"
  | .be => "be"
  | .to => "to"
  | .dice => "dice"
  | .with_ => "with"
  | .face => "face"
  | .true_ => "true"
  | .false_ => "false"

/-- `Keywords::DISCRIMINANTS`, in source order. -/
def Keywords.DISCRIMINANTS : List Keywords :=
  [.asMut, .be, .to, .dice, .with_, .face, .true_, .false_]

/-- The separator condition from `Keywords::check` / `Insts::check`:
`i_chars.len() == s.len() || is_sep(s[i_chars.len()])` (the index is in
bounds whenever `is_item` held and the lengths differ). -/
def sepAfter (len : Nat) (s : List Char) : Bool :=
  len == s.length ||
    (match s.get? len with
     | some c => is_sep c
     | none => false)

/-- `Keywords::check` from lex.rs (the overridden one with the separator
requirement). -/
def Keywords.check (s : List Char) : Option Keywords :=
  Keywords.DISCRIMINANTS.find? fun i =>
    let i_chars := i.asStr.data
    is_item i_chars s && sepAfter i_chars.length s

/-- `enum Insts` from lex.rs. -/
inductive Insts where
  | print | sub | call | while_ | let_ | modify | input
  | if_ | elif | else_ | end_ | roll | halt | break_
  | enableWait | disableWait
  deriving DecidableEq, Repr

/-- `Insts::as_str`. -/
def Insts.asStr : Insts → String
  | .print => "print"
  | .sub => "sub"
  | .call => "call"
  | .while_ => "while"
  | .let_ => "let"
  | .modify => "modify"
  | .input => "input"
  | .if_ => "if"
  | .elif => "elif"
  | .else_ => "else"
  | .end_ => "end"
  | .roll => "roll"
  | .halt => "halt"
  | .break_ => "break"
  | .enableWait => "enablewait"
  | .disableWait => "disablewait"

/-- `Insts::DISCRIMINANTS`, in source order. -/
def Insts.DISCRIMINANTS : List Insts :=
  [.print, .sub, .call, .while_, .let_, .modify, .input, .if_, .elif,
   .else_, .end_, .roll, .halt, .break_, .enableWait, .disableWait]

/-- `Insts::check` from lex.rs (with the separator requirement). -/
def Insts.check (s : List Char) : Option Insts :=
  Insts.DISCRIMINANTS.find? fun i =>
    let i_chars := i.asStr.data
    is_item i_chars s && sepAfter i_chars.length s

/-- `enum AriOps` from lex.rs. -/
inductive AriOps where
  | add | sub | mul | div | mod
  deriving DecidableEq, Repr

/-- `AriOps::as_str`. -/
def AriOps.asStr : AriOps → String
  | .add => "+"
  | .sub => "-"
  | .mul => "*"
  | .div => "/"
  | .mod => "%"

/-- `AriOps::DISCRIMINANTS`. -/
def AriOps.DISCRIMINANTS : List AriOps := [.add, .sub, .mul, .div, .mod]

/-- `AriOps::check` (the default `ToItem::check`: no separator requirement). -/
def AriOps.check (s : List Char) : Option AriOps :=
  AriOps.DISCRIMINANTS.find? fun i => is_item i.asStr.data s

/-- `enum RelOps` from lex.rs. -/
inductive RelOps where
  | equal | notEqual | lessEqual | greaterEqual | lessThan | greaterThan
  deriving DecidableEq, Repr

/-- `RelOps::as_str`. -/
def RelOps.asStr : RelOps → String
  | .equal => "=="
  | .notEqual => "!="
  | .lessEqual => "<="
  | .greaterEqual => ">="
  | .lessThan => "<"
  | .greaterThan => ">"

/-- `RelOps::DISCRIMINANTS` (two-character spellings first, which realises
longest-match). -/
def RelOps.DISCRIMINANTS : List RelOps :=
  [.equal, .notEqual, .lessEqual, .greaterEqual, .lessThan, .greaterThan]

/-- `RelOps::check` (the default `ToItem::check`: no separator requirement). -/
def RelOps.check (s : List Char) : Option RelOps :=
  RelOps.DISCRIMINANTS.find? fun i => is_item i.asStr.data s

/-- `enum Ops` from lex.rs. -/
inductive Ops where
  | ari (op : AriOps)
  | rel (op : RelOps)
  deriving DecidableEq, Repr

/-- `enum Item` from lex.rs. `crate::types::IntType` (types.rs is not in
src/) is modelled as `Nat`: every literal a claim mentions is small, so the
missing width never matters. -/
inductive Item where
  | key (k : Keywords)
  | inst (i : Insts)
  | ops (o : Ops)
  | num (n : Nat)
  | ident (s : String)
  | str (s : String)
  | semi
  | comma
  | lparen
  | rparen
  deriving DecidableEq, Repr

/-- `struct Location` from lex.rs (1-based row and column). -/
structure Location where
  row : Nat
  col : Nat
  deriving DecidableEq, Repr

/-- `struct Token` from lex.rs. -/
structure Token where
  loc : Location
  item : Item
  deriving DecidableEq, Repr

/-- `struct Lexed` from lex.rs. -/
structure Lexed where
  lines : List String
  tokens : List Token
  deriving DecidableEq, Repr

/-- `enum ErrorKind` from lex.rs. -/
inductive LexErrorKind where
  | unterminatedStr
  | unexpectedChar (c : Char)
  deriving DecidableEq, Repr

/-- `struct Error` from lex.rs (a `LocInfo` is a line plus a location). -/
structure LexError where
  line : String
  loc : Location
  kind : LexErrorKind
  deriving DecidableEq, Repr

/-- Numeric value of a digit run (Rust `s.parse().unwrap()`). -/
def digitsVal (l : List Char) : Nat :=
  l.foldl (fun a c => a * 10 + (c.toNat - '0'.toNat)) 0

/-- The word-scanning arm of `lex` (the `_ =>` branch of the per-character
match): tries, in source order, the irregular plurals "dices"/"faces", then
keywords, instruction words, arithmetic operators, relational operators, a
numeric literal, and finally an identifier run. Returns the produced item
and the number of characters consumed, or `none` for the
unexpected-character error. `vs` is the line suffix `&v[i..]`. -/
def scanWord (vs : List Char) : Option (Item × Nat) :=
  if is_item "dices".data vs && sepAfter 5 vs then
    some (.key .dice, 5)
  else if is_item "faces".data vs && sepAfter 5 vs then
    some (.key .face, 5)
  else match Keywords.check vs with
  | some res => some (.key res, res.asStr.length)
  | none =>
    match Insts.check vs with
    | some res => some (.inst res, res.asStr.length)
    | none =>
      match AriOps.check vs with
      | some res => some (.ops (.ari res), res.asStr.length)
      | none =>
        match RelOps.check vs with
        | some res => some (.ops (.rel res), res.asStr.length)
        | none =>
          match vs with
          | [] => none
          | c :: _ =>
            if c.isDigit then
              let run := vs.takeWhile Char.isDigit
              some (.num (digitsVal run), run.length)
            else if is_ident_char c then
              let run := vs.takeWhile is_ident_char
              some (.ident run.asString, run.length)
            else none

/-- The reserved spellings of the language paired with the token item each
lexes to: the two irregular plural spellings (tried first by the scanner),
the keywords, and the instruction words. -/
def vocabStrings : List (String × Item) :=
  [("dices", .key .dice), ("faces", .key .face)]
    ++ Keywords.DISCRIMINANTS.map (fun k => (k.asStr, .key k))
    ++ Insts.DISCRIMINANTS.map (fun i => (i.asStr, .inst i))

/-- A reserved spelling matches at a scan position: case-insensitive
prefix match and followed by a separator or the end of the line slice
(the acceptance condition of `Keywords::check`/`Insts::check` and of the
plural special cases). -/
def matchesWithSep (w : List Char) (vs : List Char) : Bool :=
  is_item w vs && sepAfter w.length vs

/-- Did the word scanner produce a keyword or instruction-word token? -/
def isReservedScan : Option (Item × Nat) → Bool
  | some (.key _, _) => true
  | some (.inst _, _) => true
  | _ => false

/-- Lowercase ASCII letter (by scalar value). -/
def isLcLetter (c : Char) : Bool :=
  decide (97 ≤ c.toNat) && decide (c.toNat ≤ 122)

/-- Result of lexing one line (or a whole source): `panic` is a Rust panic
(an out-of-bounds index), `spin` is the fuel-exhaustion artifact of the
embedding and is never reached with the fuel `lex` supplies. -/
inductive LineOutcome where
  | ok (tokens : List Token)
  | err (e : LexError)
  | panic
  | spin
  deriving DecidableEq, Repr

/-- The per-line scanning loop of `lex` from lex.rs, at position `i` of the
character vector `v` of line `row` (text `line`). Fuel only bounds the
recursion; `v.length + 1` is always enough because every step advances `i`. -/
def lexLine (line : String) (row : Nat) (v : List Char) :
    Nat → Nat → LineOutcome
  | 0, _ => .spin
  | fuel + 1, i =>
    match v.get? i with
    | none => .ok []
    | some c =>
      if c.isWhitespace then
        lexLine line row v fuel (i + 1)
      else
        let loc : Location := ⟨row, i + 1⟩
        let push := fun (it : Item) (next : Nat) =>
          match lexLine line row v fuel next with
          | .ok tks => .ok (⟨loc, it⟩ :: tks)
          | o => o
        if c == '#' then .ok []
        else if c == ';' then push .semi (i + 1)
        else if c == ',' then push .comma (i + 1)
        else if c == '(' then push .lparen (i + 1)
        else if c == ')' then push .rparen (i + 1)
        else if c == '"' then
          -- scan to the closing quote; afterwards the source unconditionally
          -- reads `v[i]`, which is out of bounds when the quote is missing
          let content := (v.drop (i + 1)).takeWhile fun ch => ch != '"'
          let j := i + 1 + content.length
          match v.get? j with
          | some cj =>
            if cj != '"' then .err ⟨line, loc, .unterminatedStr⟩
            else push (.str content.asString) (j + 1)
          | none => .panic
        else
          match scanWord (v.drop i) with
          | some (it, len) => push it (i + len)
          | none => .err ⟨line, loc, .unexpectedChar c⟩

/-- Split a character list at newline characters (every piece, in order,
newline characters dropped). -/
def splitNl : List Char → List (List Char)
  | [] => [[]]
  | c :: rest =>
    match splitNl rest with
    | [] => [[]]
    | cur :: done =>
      if c == '\n' then [] :: cur :: done else (c :: cur) :: done

/-- Strip one trailing carriage return (the `\r` of a `\r\n` line ending). -/
def stripCr (l : List Char) : List Char :=
  match l.getLast? with
  | some '\r' => l.dropLast
  | _ => l

/-- Rust `str::lines`: split on newlines, drop the optional final line
ending, strip a trailing carriage return from each line. -/
def rustLines (s : String) : List String :=
  let raw := splitNl s.data
  let raw := if raw.getLast? = some [] then raw.dropLast else raw
  (raw.map stripCr).map List.asString

/-- The per-line driver of `lex`: runs `lexLine` on each line in turn,
propagating the first error or panic. -/
def lexLines : List String → Nat → LineOutcome
  | [], _ => .ok []
  | l :: rest, row =>
    match lexLine l row l.data (l.data.length + 1) 0 with
    | .ok tks =>
      match lexLines rest (row + 1) with
      | .ok more => .ok (tks ++ more)
      | o => o
    | o => o

/-- Overall result of `fn lex`: `Result<Lexed, Error>` plus the panic
outcome the source can actually take. -/
inductive LexResult where
  | ok (l : Lexed)
  | err (e : LexError)
  | panic
  | spin
  deriving DecidableEq, Repr

/-- `pub fn lex(s: String) -> Result<Lexed, Error>` from lex.rs. -/
def lex (s : String) : LexResult :=
  let lines := rustLines s
  match lexLines lines 1 with
  | .ok tks => .ok ⟨lines, tks⟩
  | .err e => .err e
  | .panic => .panic
  | .spin => .spin

/-! ## Expression engine (src/exprs.rs)

The parse-tree-driven engine: `Expr` is either an atom or an addition whose
left operand is an atom and whose right operand is a boxed `Expr` (the
`struct TrueExpr { lhs, op, rhs: Box<Expr> }` is inlined as the `trueExpr`
constructor). Values have Rust type `usize`, embedded as `Nat` with
overflow checked against `2^64 - 1` (a 64-bit target). -/

/-- `enum ExprRuntimeError` from exprs.rs. -/
inductive ExprRuntimeError where
  | identNotFound (s : String)
  | overFlow
  deriving DecidableEq, Repr

/-- `enum IdentOrNum` from exprs.rs. -/
inductive IdentOrNum where
  | ident (s : String)
  | num (n : Nat)
  deriving DecidableEq, Repr

/-- `enum ExprOp` from exprs.rs: the only operator is `Add`. -/
inductive ExprOp where
  | add
  deriving DecidableEq, Repr

/-- `enum Expr` from exprs.rs, with `struct TrueExpr` inlined. -/
inductive Expr where
  | identOrNum (x : IdentOrNum)
  | trueExpr (lhs : IdentOrNum) (op : ExprOp) (rhs : Expr)
  deriving DecidableEq, Repr

/-- `enum CompOp` from exprs.rs. -/
inductive CompOp where
  | lessThan | greaterThan | equal | notEqual | lessEqual | greaterEqual
  deriving DecidableEq, Repr

/-- `struct CompExpr` from exprs.rs. -/
structure CompExpr where
  lhs : Expr
  op : CompOp
  rhs : Expr
  deriving DecidableEq, Repr

/-- Modelled from the spec: the variable binding of runner.rs (not in src/),
`{value: integer, mutable: boolean}` (spec section 3). The value type is the
`usize` used by `Eval for IdentOrNum` in exprs.rs. -/
structure Variable where
  value : Nat
  is_mut : Bool
  deriving DecidableEq, Repr

/-- Modelled from the spec: the variable environment consulted by
`CallStack::get_var` of runner.rs (not in src/): a map from identifier to
binding; `get_var` returns `Option` (exprs.rs calls `.ok_or_else(...)` on
it). -/
abbrev CallStack := List (String × Variable)

/-- `CallStack::get_var`. -/
def get_var (cs : CallStack) (name : String) : Option Variable :=
  List.lookup name cs

/-- `usize::MAX` on a 64-bit target. -/
def USIZE_MAX : Nat := 2 ^ 64 - 1

/-- `usize::checked_add`. -/
def checked_add (a b : Nat) : Option Nat :=
  if a + b ≤ USIZE_MAX then some (a + b) else none

/-- `impl Eval for IdentOrNum` from exprs.rs. -/
def IdentOrNum.eval (x : IdentOrNum) (cs : CallStack) :
    Except ExprRuntimeError Nat :=
  match x with
  | .ident name =>
    match get_var cs name with
    | some v => .ok v.value
    | none => .error (.identNotFound name)
  | .num n => .ok n

/-- `impl Eval for Expr` and `impl Eval for TrueExpr` from exprs.rs:
evaluate `lhs`, then `rhs`, then `lhs.checked_add(rhs)` with `OverFlow`
on `None`. -/
def Expr.eval : Expr → CallStack → Except ExprRuntimeError Nat
  | .identOrNum ion, cs => ion.eval cs
  | .trueExpr lhs op rhs, cs =>
    match lhs.eval cs with
    | .error e => .error e
    | .ok a =>
      match rhs.eval cs with
      | .error e => .error e
      | .ok b =>
        match op with
        | .add =>
          match checked_add a b with
          | some r => .ok r
          | none => .error .overFlow

/-- `impl Eval for CompExpr` from exprs.rs. -/
def CompExpr.eval (ce : CompExpr) (cs : CallStack) :
    Except ExprRuntimeError Bool :=
  match ce.lhs.eval cs with
  | .error e => .error e
  | .ok a =>
    match ce.rhs.eval cs with
    | .error e => .error e
    | .ok b =>
      .ok (match ce.op with
        | .lessThan => decide (a < b)
        | .greaterThan => decide (a > b)
        | .equal => decide (a = b)
        | .notEqual => decide (a ≠ b)
        | .lessEqual => decide (a ≤ b)
        | .greaterEqual => decide (a ≥ b))

/-- Specification-side helper: the identifiers an expression references, in
evaluation order. -/
def Expr.refs : Expr → List String
  | .identOrNum (.ident s) => [s]
  | .identOrNum (.num _) => []
  | .trueExpr (.ident s) _ rhs => s :: rhs.refs
  | .trueExpr (.num _) _ rhs => rhs.refs

/-- Specification-side helper: value of an atom under an environment
(unbound identifiers give 0; only used when every identifier is bound). -/
def atomVal (cs : CallStack) : IdentOrNum → Nat
  | .num n => n
  | .ident s => (get_var cs s).elim 0 Variable.value

/-- Specification-side helper: the exact mathematical sum of an expression
(no overflow cap). -/
def Expr.sumVal : Expr → CallStack → Nat
  | .identOrNum a, cs => atomVal cs a
  | .trueExpr l _ r, cs => atomVal cs l + r.sumVal cs

/-- Specification-side helper: does the expression reference an identifier
with no binding? -/
def Expr.hasUnbound (e : Expr) (cs : CallStack) : Bool :=
  e.refs.any fun s => (get_var cs s).isNone

/-- Specification-side helper: the first (leftmost, i.e. first-evaluated)
unbound identifier of an expression, if any. -/
def firstUnbound : Expr → CallStack → Option String
  | .identOrNum (.ident s), cs => if (get_var cs s).isNone then some s else none
  | .identOrNum (.num _), _ => none
  | .trueExpr (.ident s) _ r, cs =>
    if (get_var cs s).isNone then some s else firstUnbound r cs
  | .trueExpr (.num _) _ r, cs => firstUnbound r cs

/-- The `usize` type invariant of exprs.rs on numeric literals: every
`IdentOrNum::Num` payload fits in the integer type. -/
def IdentOrNum.wfB : IdentOrNum → Bool
  | .num n => decide (n ≤ USIZE_MAX)
  | .ident _ => true

/-- The `usize` type invariant on every literal of an expression. -/
def Expr.wfB : Expr → Bool
  | .identOrNum a => a.wfB
  | .trueExpr l _ r => l.wfB && r.wfB

/-- The `usize` type invariant on the stored values of the environment. -/
def envBounded (cs : CallStack) : Bool :=
  cs.all fun p => decide (p.2.value ≤ USIZE_MAX)

/-! ## Instruction compiler (src/parse.rs)

The compiler consumes the rule-tagged statement stream produced by the
external pest grammar; a `Stmt` below is one statement with its payloads
already extracted the way `parse` extracts them (`Expr::parse_stmt`,
`as_str().to_owned()`, ...). Each `die!` site becomes a distinct
`CompileError`; `HashMap` becomes an association list (`insert` first
checks membership, exactly as the `subs.insert(..).is_some()` test does). -/

/-- `enum PrintArgs` from parse.rs. -/
inductive PrintArgs where
  | string (s : String)
  | expr (e : Expr)
  deriving DecidableEq, Repr

/-- `enum Inst` from parse.rs. -/
inductive Inst where
  | print (args : List PrintArgs)
  | sub (name : String) (offset_to_end : Nat)
  | call (name : String)
  | while_ (cond : CompExpr) (offset_to_end : Nat)
  | let_ (name : String) (init : Expr) (is_mut : Bool)
  | modify (name : String) (expr : Expr)
  | if_ (cond : CompExpr) (offset_to_next : Nat)
  | elif (cond : CompExpr) (offset_to_next : Nat)
  | else_ (offset_to_end : Nat)
  | end_
  | input (prompt : Option String)
  | roll (count : Expr) (face : Expr)
  | halt
  | ill
  | break_
  | enableWait
  | disableWait
  deriving DecidableEq, Repr

/-- `struct Program` from parse.rs. -/
structure Program where
  insts : List Inst
  subs : List (String × Nat)
  deriving DecidableEq, Repr

/-- `struct WaitsEnd` from parse.rs. -/
structure WaitsEnd where
  kind : Inst
  index : Nat
  deriving DecidableEq, Repr

/-- One statement of the input stream (one pest `Rule` match with its
payloads). `Rule::Comment` produces no instruction and is dropped before
this stream; every `Stmt` below appends exactly one instruction. -/
inductive Stmt where
  | print (args : List PrintArgs)
  | sub (name : String)
  | call (name : String)
  | while_ (cond : CompExpr)
  | let_ (name : String) (init : Expr) (is_mut : Bool)
  | modify (name : String) (expr : Expr)
  | if_ (cond : CompExpr)
  | elif (cond : CompExpr)
  | else_
  | end_
  | input (prompt : Option String)
  | roll (count : Expr) (face : Expr)
  | halt
  | break_
  | enableWait
  | disableWait
  deriving DecidableEq, Repr

/-- The `die!` sites of `parse` in parse.rs, one error per site. -/
inductive CompileError where
  | nestedSub
  | dupSubName (n : String)
  | reservedLet
  | reservedModify
  | strayElIf
  | elifNoMatch
  | strayElse
  | elseNoMatch
  | strayEnd
  | endBadKind
  deriving DecidableEq, Repr

/-- Compiler state: the instruction list, the pending-block stack
(`waits_end_stack`, head = `Vec::last`), and the subroutine table. -/
structure PState where
  insts : List Inst
  stack : List WaitsEnd
  subs : List (String × Nat)
  deriving DecidableEq, Repr

/-- `name.starts_with("_")` from the `Rule::Let` / `Rule::Modify` arms. -/
def startsWithUnderscore (name : String) : Bool :=
  match name.data with
  | c :: _ => c == '_'
  | [] => false

/-- `if let Some(i) = waits_end_stack.last() { if let Inst::Sub{..} = i.kind }`
from the `Rule::Sub` arm. -/
def topIsSub (stack : List WaitsEnd) : Bool :=
  match stack with
  | e :: _ => match e.kind with | .sub _ _ => true | _ => false
  | [] => false

/-- The offset patch performed by the `Rule::ElIf` / `Rule::Else` arms:
only a pending `If` or `ElIf` may be patched with an `offset_to_next`. -/
def patchNext (k : Inst) (off : Nat) : Option Inst :=
  match k with
  | .if_ c _ => some (.if_ c off)
  | .elif c _ => some (.elif c off)
  | _ => none

/-- The offset patch performed by the `Rule::End` arm. -/
def patchEnd (k : Inst) (off : Nat) : Option Inst :=
  match k with
  | .sub n _ => some (.sub n off)
  | .while_ c _ => some (.while_ c off)
  | .if_ c _ => some (.if_ c off)
  | .elif c _ => some (.elif c off)
  | .else_ _ => some (.else_ off)
  | _ => none

/-- One iteration of the `for stmt in stmts` loop of `parse` in parse.rs. -/
def parseStep (stmt : Stmt) (st : PState) : Except CompileError PState :=
  match stmt with
  | .print args => .ok { st with insts := st.insts ++ [.print args] }
  | .sub name =>
    if topIsSub st.stack then .error .nestedSub
    else if (st.subs.lookup name).isSome then .error (.dupSubName name)
    else
      let inst := Inst.sub name 0
      .ok ⟨st.insts ++ [inst], ⟨inst, st.insts.length⟩ :: st.stack,
           (name, st.insts.length) :: st.subs⟩
  | .call name => .ok { st with insts := st.insts ++ [.call name] }
  | .while_ c =>
    let inst := Inst.while_ c 0
    .ok ⟨st.insts ++ [inst], ⟨inst, st.insts.length⟩ :: st.stack, st.subs⟩
  | .let_ name init is_mut =>
    if startsWithUnderscore name then .error .reservedLet
    else .ok { st with insts := st.insts ++ [.let_ name init is_mut] }
  | .modify name e =>
    if startsWithUnderscore name then .error .reservedModify
    else .ok { st with insts := st.insts ++ [.modify name e] }
  | .if_ c =>
    let inst := Inst.if_ c 0
    .ok ⟨st.insts ++ [inst], ⟨inst, st.insts.length⟩ :: st.stack, st.subs⟩
  | .elif c =>
    match st.stack with
    | [] => .error .strayElIf
    | prev :: rest =>
      match patchNext prev.kind (st.insts.length - prev.index) with
      | none => .error .elifNoMatch
      | some p =>
        let inst := Inst.elif c 0
        .ok ⟨(st.insts.set prev.index p) ++ [inst],
             ⟨inst, st.insts.length⟩ :: rest, st.subs⟩
  | .else_ =>
    match st.stack with
    | [] => .error .strayElse
    | prev :: rest =>
      match patchNext prev.kind (st.insts.length - prev.index) with
      | none => .error .elseNoMatch
      | some p =>
        let inst := Inst.else_ 0
        .ok ⟨(st.insts.set prev.index p) ++ [inst],
             ⟨inst, st.insts.length⟩ :: rest, st.subs⟩
  | .end_ =>
    match st.stack with
    | [] => .error .strayEnd
    | start :: rest =>
      match patchEnd start.kind (st.insts.length - start.index) with
      | none => .error .endBadKind
      | some p =>
        .ok ⟨(st.insts.set start.index p) ++ [.end_], rest, st.subs⟩
  | .input pr => .ok { st with insts := st.insts ++ [.input pr] }
  | .roll c f => .ok { st with insts := st.insts ++ [.roll c f] }
  | .halt => .ok { st with insts := st.insts ++ [.halt] }
  | .break_ => .ok { st with insts := st.insts ++ [.break_] }
  | .enableWait => .ok { st with insts := st.insts ++ [.enableWait] }
  | .disableWait => .ok { st with insts := st.insts ++ [.disableWait] }

/-- The statement loop of `parse`. -/
def parseList : List Stmt → PState → Except CompileError PState
  | [], st => .ok st
  | s :: rest, st =>
    match parseStep s st with
    | .ok st2 => parseList rest st2
    | .error e => .error e

/-- `let mut insts = vec![Inst::Ill]; ...`: the initial compiler state. -/
def initPState : PState := ⟨[.ill], [], []⟩

/-- `pub fn parse(s: &str) -> Option<Program>` from parse.rs, starting from
the statement stream (the pest front end is the out-of-scope collaborator);
a `die!` (process exit) is an `error`. -/
def parse (stmts : List Stmt) : Except CompileError Program :=
  match parseList stmts initPState with
  | .ok st => .ok ⟨st.insts, st.subs⟩
  | .error e => .error e

/-- The compiler state after the first `k` statements. -/
def parseSt (stmts : List Stmt) (k : Nat) : Except CompileError PState :=
  parseList (stmts.take k) initPState

/-! Specification-side structural matching: the pending-block discipline on
statements alone. A `Sub`/`While`/`If` pushes its position; `ElIf`/`Else`
pop the top (recording the popped opener's closer) and push themselves;
`End` pops and records. -/

/-- Scan state: pending opener positions (head = top) and the recorded
(opener, closer) position pairs. -/
structure ScanSt where
  stack : List Nat
  matched : List (Nat × Nat)
  deriving DecidableEq, Repr

/-- One step of the structural scan at statement position `p`. -/
def scanStep (p : Nat) (s : Stmt) (sc : ScanSt) : ScanSt :=
  match s with
  | .sub _ => ⟨p :: sc.stack, sc.matched⟩
  | .while_ _ => ⟨p :: sc.stack, sc.matched⟩
  | .if_ _ => ⟨p :: sc.stack, sc.matched⟩
  | .elif _ =>
    match sc.stack with
    | [] => sc
    | q :: rest => ⟨p :: rest, (q, p) :: sc.matched⟩
  | .else_ =>
    match sc.stack with
    | [] => sc
    | q :: rest => ⟨p :: rest, (q, p) :: sc.matched⟩
  | .end_ =>
    match sc.stack with
    | [] => sc
    | q :: rest => ⟨rest, (q, p) :: sc.matched⟩
  | _ => sc

/-- Run the structural scan over a statement list starting at position `p`. -/
def scanGo : List Stmt → Nat → ScanSt → ScanSt
  | [], _, sc => sc
  | s :: rest, p, sc => scanGo rest (p + 1) (scanStep p s sc)

/-- Scan state after the first `k` statements. -/
def scanAt (stmts : List Stmt) (k : Nat) : ScanSt :=
  scanGo (stmts.take k) 0 ⟨[], []⟩

/-- Is the statement a block opener (pushes a pending entry)? -/
def Stmt.isOpener : Stmt → Bool
  | .sub _ => true
  | .while_ _ => true
  | .if_ _ => true
  | .elif _ => true
  | .else_ => true
  | _ => false

/-- The instruction an opener statement compiles to, with the given offset
field (offset 0 at push time; the patched value at close time). -/
def openInstOff : Stmt → Nat → Inst
  | .sub n, off => .sub n off
  | .while_ c, off => .while_ c off
  | .if_ c, off => .if_ c off
  | .elif c, off => .elif c off
  | .else_, off => .else_ off
  | _, _ => .ill

/-- There is an opener statement at position `p`. -/
def openerAt (stmts : List Stmt) (p : Nat) : Prop :=
  ∃ s, stmts.get? p = some s ∧ s.isOpener = true

/-- The simulation invariant between the compiler state after `k`
statements and the structural scan after `k` statements: one instruction
per statement past the sentinel; the pending-block stack mirrors the scan
stack (instruction index = statement position + 1); every pending entry
still holds its opener instruction with offset 0 (both in the entry's
`kind` and in the instruction list); and every matched opener has been
patched with exactly the position distance to its closer. -/
def Inv (stmts : List Stmt) (k : Nat) (st : PState) : Prop :=
  st.insts.length = k + 1 ∧
  st.stack.map WaitsEnd.index = (scanAt stmts k).stack.map (· + 1) ∧
  (∀ e ∈ st.stack, ∃ s, stmts.get? (e.index - 1) = some s ∧
    s.isOpener = true ∧ e.kind = openInstOff s 0 ∧
    st.insts.get? e.index = some (openInstOff s 0)) ∧
  (∀ pq ∈ (scanAt stmts k).matched, ∃ s, stmts.get? pq.1 = some s ∧
    s.isOpener = true ∧
    st.insts.get? (pq.1 + 1) = some (openInstOff s (pq.2 - pq.1)))

/-! ## Minimal engine (src/main.rs)

`parse_stmts` and `process_stmts`: the Print/FnBegin/FnEnd/Call engine the
spec describes as SubBegin/Call/SubEnd, with a single optional return
address and no index-0 sentinel. -/

/-- `enum StmtType` from main.rs. -/
inductive StmtType where
  | print (text : String)
  | fnBegin (name : String) (offset_to_end : Nat)
  | fnEnd
  | call (name : String)
  deriving DecidableEq, Repr

/-- `struct Program` from main.rs (named apart from the parse.rs one). -/
structure MProgram where
  stmts : List StmtType
  fns : List (String × Nat)
  deriving DecidableEq, Repr

/-- One statement of the stream `parse_stmts` consumes (a pest rule with
its payload). -/
inductive MStmt where
  | print (text : String)
  | fnBegin (name : String)
  | fnEnd
  | call (name : String)
  deriving DecidableEq, Repr

/-- The two `std::process::exit(1)` sites of `parse_stmts`. -/
inductive MParseError where
  | nestedFn
  | strayFnEnd
  deriving DecidableEq, Repr

/-- Result of `parse_stmts`: a program, a reported fatal error, or a Rust
panic (the `unreachable!()` when the recorded start index does not hold a
`FnBegin`). -/
inductive MParsed where
  | ok (p : MProgram)
  | err (e : MParseError)
  | panic
  deriving DecidableEq, Repr

/-- The statement loop of `fn parse_stmts` from main.rs. `fn_start` is the
single pending-function slot; `fns.insert` happens before the push (and
silently overwrites duplicates, association-list shadowing). -/
def parseStmtsGo : List MStmt → List StmtType → List (String × Nat) →
    Option Nat → MParsed
  | [], acc, fns, _ => .ok ⟨acc, fns⟩
  | s :: rest, acc, fns, fn_start =>
    match s with
    | .print text => parseStmtsGo rest (acc ++ [.print text]) fns fn_start
    | .fnBegin name =>
      if fn_start.isSome then .err .nestedFn
      else
        parseStmtsGo rest (acc ++ [.fnBegin name 0])
          ((name, acc.length) :: fns) (some acc.length)
    | .fnEnd =>
      match fn_start with
      | none => .err .strayFnEnd
      | some start =>
        match acc.get? start with
        | some (.fnBegin name _) =>
          parseStmtsGo rest
            ((acc.set start (.fnBegin name (acc.length - start))) ++ [.fnEnd])
            fns none
        | _ => .panic
    | .call name => parseStmtsGo rest (acc ++ [.call name]) fns fn_start

/-- `fn parse_stmts(s: String) -> Option<Program>` from main.rs, starting
from the statement stream. -/
def parse_stmts (l : List MStmt) : MParsed := parseStmtsGo l [] [] none

/-- Interpreter state of `process_stmts`: program counter `i`, the single
return-address slot `ret_idx`, and the accumulated `Print` output (the
keypress wait is external I/O and not modelled). -/
structure RState where
  i : Nat
  ret_idx : Option Nat
  out : List String
  deriving DecidableEq, Repr

/-- One step outcome of the `while i < prog.stmts.len()` loop. -/
inductive StepRes where
  | next (st : RState)
  | panic
  | done (out : List String)
  deriving DecidableEq, Repr

/-- One iteration of the loop body of `fn process_stmts` from main.rs:
`Print` emits and advances; `FnBegin` skips its body
(`i += offset_to_end + 1`); `Call` records `i + 1` and jumps to the body
start (`*idx + 1`), `unreachable!()` when the name is absent; `FnEnd`
returns to (and clears) the recorded address, `unreachable!()` when the
slot is empty. -/
def mStep (prog : MProgram) (st : RState) : StepRes :=
  match prog.stmts.get? st.i with
  | none => .done st.out
  | some s =>
    match s with
    | .print text => .next ⟨st.i + 1, st.ret_idx, st.out ++ [text]⟩
    | .fnBegin _ off => .next ⟨st.i + off + 1, st.ret_idx, st.out⟩
    | .call name =>
      match prog.fns.lookup name with
      | some idx => .next ⟨idx + 1, some (st.i + 1), st.out⟩
      | none => .panic
    | .fnEnd =>
      match st.ret_idx with
      | some r => .next ⟨r, none, st.out⟩
      | none => .panic

/-- Overall result of running `process_stmts` (spin = out of fuel). -/
inductive RunRes where
  | finished (out : List String)
  | panicked
  | spin
  deriving DecidableEq, Repr

/-- The `while` loop of `process_stmts`, fuelled. -/
def runM (prog : MProgram) : Nat → RState → RunRes
  | 0, _ => .spin
  | fuel + 1, st =>
    match mStep prog st with
    | .done out => .finished out
    | .panic => .panicked
    | .next st2 => runM prog fuel st2

/-- `process_stmts(prog)`: run from `i = 0` with an empty return slot. -/
def runProg (prog : MProgram) (fuel : Nat) : RunRes :=
  runM prog fuel ⟨0, none, []⟩

/-! ## Expression compiler and evaluator adopted by the spec

Modelled from the spec: the token-level operator-precedence (shunting-yard)
expression compiler and the postfix evaluator (spec sections 4.2 and 4.3)
are not among the files under src/; only the superseded parse-tree engine
(exprs.rs) is. The definitions below follow the spec's words: precedence is
total with the multiplicative tier binding tightest, then the additive
tier, then all relational operators; operators within one tier compare
equal and associate to the left (so an incoming operator pops every stacked
operator that binds at least as tightly); `(`/`)` group; at end of input
the stack drains, and a remaining `(` is an unmatched-parenthesis error.
The evaluator runs the postfix form with a value stack over a fixed-width
signed integer (taken as 64-bit) with overflow-checked arithmetic. -/

/-- Modelled from the spec: total precedence, multiplicative tier 2,
additive tier 1, every relational operator 0. -/
def prec : Ops → Nat
  | .ari .mul => 2
  | .ari .div => 2
  | .ari .mod => 2
  | .ari .add => 1
  | .ari .sub => 1
  | .rel _ => 0

/-- A node of the postfix (RPN) expression form (spec section 3). -/
inductive PostNode where
  | bool (b : Bool)
  | ident (s : String)
  | num (n : Nat)
  | op (o : Ops)
  deriving DecidableEq, Repr

/-- Errors of the expression compiler (spec section 4.2). -/
inductive ExprCompileError where
  | invalidToken
  | emptyExpr
  | unmatchedParen
  deriving DecidableEq, Repr

/-- Operator-stack element: an operator or an open parenthesis. -/
inductive StkElem where
  | op (o : Ops)
  | paren
  deriving DecidableEq, Repr

/-- Pop (emit) every stacked operator binding at least as tightly as the
incoming operator `o`; stop at a parenthesis. -/
def popGE (o : Ops) : List StkElem → List PostNode × List StkElem
  | [] => ([], [])
  | .paren :: rest => ([], .paren :: rest)
  | .op o2 :: rest =>
    if prec o ≤ prec o2 then
      let (em, stk) := popGE o rest
      (PostNode.op o2 :: em, stk)
    else ([], .op o2 :: rest)

/-- Pop (emit) to the matching `(`, discarding it; `none` when the stack
empties first (unmatched `)`). -/
def popToParen : List StkElem → Option (List PostNode × List StkElem)
  | [] => none
  | .paren :: rest => some ([], rest)
  | .op o :: rest =>
    (popToParen rest).map fun p => (PostNode.op o :: p.1, p.2)

/-- Drain the operator stack at end of input; a remaining `(` is fatal. -/
def drainStk : List StkElem → List PostNode → Except ExprCompileError (List PostNode)
  | [], out => .ok out
  | .paren :: _, _ => .error .unmatchedParen
  | .op o :: rest, out => drainStk rest (out ++ [.op o])

/-- The single pass of the shunting-yard conversion over the token items. -/
def compileGo : List Item → List StkElem → List PostNode →
    Except ExprCompileError (List PostNode)
  | [], stk, out => drainStk stk out
  | tk :: rest, stk, out =>
    match tk with
    | .ident s => compileGo rest stk (out ++ [.ident s])
    | .num n => compileGo rest stk (out ++ [.num n])
    | .key .true_ => compileGo rest stk (out ++ [.bool true])
    | .key .false_ => compileGo rest stk (out ++ [.bool false])
    | .lparen => compileGo rest (.paren :: stk) out
    | .rparen =>
      match popToParen stk with
      | none => .error .unmatchedParen
      | some p => compileGo rest p.2 (out ++ p.1)
    | .ops o =>
      let p := popGE o stk
      compileGo rest (.op o :: p.2) (out ++ p.1)
    | _ => .error .invalidToken

/-- Modelled from the spec: `compile(tokens) -> Expression | Error`
(spec section 4.2); an empty token slice is an empty-expression error. -/
def compileExpr (tks : List Item) : Except ExprCompileError (List PostNode) :=
  if tks.isEmpty then .error .emptyExpr else compileGo tks [] []

/-- Runtime value: integer or boolean (spec section 4.3). -/
inductive Value where
  | int (n : Int)
  | bool (b : Bool)
  deriving DecidableEq, Repr

/-- Runtime errors of the postfix evaluator (spec sections 4.3 and 7). -/
inductive EvalError where
  | identNotFound
  | overflow
  | typeMismatch
  | divZero
  | malformed
  deriving DecidableEq, Repr

/-- `i64::MIN` as the minimum of the fixed-width signed integer. -/
def I64_MIN : Int := -(2 ^ 63)

/-- `i64::MAX` as the maximum of the fixed-width signed integer. -/
def I64_MAX : Int := 2 ^ 63 - 1

/-- Overflow check of the fixed-width signed arithmetic. -/
def checkedInt (n : Int) : Except EvalError Int :=
  if n < I64_MIN ∨ I64_MAX < n then .error .overflow else .ok n

/-- Overflow-checked arithmetic; division and modulo by zero are reported
errors; quotient truncates toward zero as in Rust. -/
def applyAri (o : AriOps) (a b : Int) : Except EvalError Int :=
  match o with
  | .add => checkedInt (a + b)
  | .sub => checkedInt (a - b)
  | .mul => checkedInt (a * b)
  | .div => if b = 0 then .error .divZero else checkedInt (Int.tdiv a b)
  | .mod => if b = 0 then .error .divZero else checkedInt (Int.tmod a b)

/-- Relational comparison on integers. -/
def applyRel (o : RelOps) (a b : Int) : Bool :=
  match o with
  | .equal => decide (a = b)
  | .notEqual => decide (a ≠ b)
  | .lessEqual => decide (a ≤ b)
  | .greaterEqual => decide (b ≤ a)
  | .lessThan => decide (a < b)
  | .greaterThan => decide (b < a)

/-- Environment of the spec's evaluator: identifier to integer value. -/
abbrev SEnv := List (String × Int)

/-- Modelled from the spec: stack evaluation of the postfix form
(spec section 4.3): literals and lookups push; an operator pops two
operands; arithmetic requires integers, relational operators compare
integers and push a boolean. -/
def evalPostGo : List PostNode → SEnv → List Value → Except EvalError Value
  | [], _, [v] => .ok v
  | [], _, _ => .error .malformed
  | n :: rest, env, stk =>
    match n with
    | .num k => evalPostGo rest env (.int (Int.ofNat k) :: stk)
    | .bool b => evalPostGo rest env (.bool b :: stk)
    | .ident s =>
      match List.lookup s env with
      | some v => evalPostGo rest env (.int v :: stk)
      | none => .error .identNotFound
    | .op o =>
      match stk with
      | b :: a :: stk2 =>
        match a, b with
        | .int x, .int y =>
          match o with
          | .ari ao =>
            match applyAri ao x y with
            | .ok r => evalPostGo rest env (.int r :: stk2)
            | .error e => .error e
          | .rel ro => evalPostGo rest env (.bool (applyRel ro x y) :: stk2)
        | _, _ => .error .typeMismatch
      | _ => .error .malformed

/-- `evaluate(expression, environment) -> Value | RuntimeError`. -/
def evalPost (ns : List PostNode) (env : SEnv) : Except EvalError Value :=
  evalPostGo ns env []

/-- Lex a source string and compile its token items to postfix form. -/
def postOfSource (s : String) : Option (List PostNode) :=
  match lex s with
  | .ok l => (compileExpr (l.tokens.map Token.item)).toOption
  | _ => none

/-- Lex, compile, and evaluate a source string in the empty environment. -/
def valueOfSource (s : String) : Option Value :=
  (postOfSource s).bind fun ns => (evalPost ns []).toOption

/-! ## Concrete fixtures used by the theorems -/

/-- A concrete comparison (`0 < 1`) used wherever a guard is needed. -/
def cmp01 : CompExpr := ⟨.identOrNum (.num 0), .lessThan, .identOrNum (.num 1)⟩

/-- The program compiled from `sub A; print "x"; end; call A;` by the
main.rs engine. -/
def exSubProg : MProgram :=
  ⟨[.fnBegin "A" 2, .print "x", .fnEnd, .call "A"], [("A", 0)]⟩

/-! ## Helper lemmas -/

/-- `parseList` splits over list append. -/
theorem parseList_append (l1 l2 : List Stmt) (st : PState) :
    parseList (l1 ++ l2) st =
      match parseList l1 st with
      | .ok st2 => parseList l2 st2
      | .error e => .error e := by
  induction l1 generalizing st with
  | nil => simp [parseList]
  | cons s rest ih =>
    simp only [List.cons_append, parseList]
    cases parseStep s st with
    | ok st2 => exact ih st2
    | error e => rfl

/-! ## Claims -/

/-- Claim C1: the expression compiler honors the total precedence ordering:
the multiplicative-tier operators `*`, `/`, `%` all have precedence 2, the
additive-tier operators `+`, `-` have precedence 1, and every relational
operator has precedence 0 (so each tier binds strictly tighter than the
next and operators within a tier compare equal); same-tier operators are
left-associative; compiling `"1 + 2 * 3"` yields a postfix form evaluating
to 7 and `"(1 + 2) * 3"` one evaluating to 9. -/
theorem C1_expr_precedence :
    (prec (.ari .mul) = 2 ∧ prec (.ari .div) = 2 ∧ prec (.ari .mod) = 2) ∧
    (prec (.ari .add) = 1 ∧ prec (.ari .sub) = 1) ∧
    (prec (.rel .equal) = 0 ∧ prec (.rel .notEqual) = 0 ∧
     prec (.rel .lessEqual) = 0 ∧ prec (.rel .greaterEqual) = 0 ∧
     prec (.rel .lessThan) = 0 ∧ prec (.rel .greaterThan) = 0) ∧
    valueOfSource "1 + 2 * 3" = some (.int 7) ∧
    valueOfSource "(1 + 2) * 3" = some (.int 9) ∧
    valueOfSource "8 - 3 - 2" = some (.int 3) ∧
    valueOfSource "20 / 2 / 5" = some (.int 2) ∧
    valueOfSource "1 + 1 == 2" = some (.bool true) := by
  decide

/-- Claim C2: contrary to the claim, a line in which a `"` opens a string
literal that is not closed on the same line makes `lex` read one character
past the end of the line buffer — a panic in the source — instead of
returning the unterminated-string error (that error branch is unreachable:
the scan loop only stops at a closing quote or at the end of the line). -/
theorem C2_unterminated_string_panics :
    lex "\"abc" = .panic ∧ lex "print \"hi" = .panic := by
  decide

/-- Claim C4: the instruction compiler performs no validation of `Call`
targets: the single-statement program `call A;` (no `sub A` anywhere)
compiles to a `Program` whose symbol table does not contain "A", and the
interpreter of the analogous minimal-engine program reaches the
`unreachable!()` panic on the symbol-table miss. -/
theorem C4_call_target_unchecked :
    parse [.call "A"] = .ok ⟨[.ill, .call "A"], []⟩ ∧
    List.lookup "A" (Program.mk [.ill, .call "A"] []).subs = none ∧
    parse_stmts [.call "A"] = .ok ⟨[.call "A"], []⟩ ∧
    runProg ⟨[.call "A"], []⟩ 10 = .panicked :=
  ⟨rfl, rfl, rfl, rfl⟩

/-- Claim C6 (counterexample): a `Sub` encountered while another `Sub` is
pending deeper in the pending-block stack (here under an open `While`) is
accepted, because the nesting check inspects only the top of the stack;
`sub A; while 0 < 1; sub B` compiles to a `Program`. -/
theorem C6_nested_sub_accepted :
    parse [.sub "A", .while_ cmp01, .sub "B"] =
      .ok ⟨[.ill, .sub "A" 0, .while_ cmp01 0, .sub "B" 0],
           [("B", 3), ("A", 1)]⟩ :=
  rfl

/-- Claim C6 (amended): compilation fails fatally, and no `Program` is
produced, whenever a `Sub` statement is encountered while a `Sub` is the
top entry of the pending-block stack, and whenever a `Sub` declares a name
already registered in the subroutine table. -/
theorem C6_sub_top_or_dup_rejected (stmts : List Stmt) (k : Nat) (st : PState)
    (name : String)
    (hk : parseSt stmts k = .ok st)
    (hs : stmts.get? k = some (.sub name))
    (hbad : topIsSub st.stack = true ∨ (st.subs.lookup name).isSome = true) :
    (parse stmts).toOption = none := by
  have hlt : k < stmts.length := List.get?_eq_some.mp hs |>.1
  have hdrop : stmts.drop k = Stmt.sub name :: stmts.drop (k + 1) := by
    rw [List.drop_eq_getElem_cons hlt]
    have := List.get?_eq_some.mp hs
    simp only [List.get?_eq_getElem?] at hs
    rw [List.getElem?_eq_getElem hlt] at hs
    simp only [Option.some.injEq] at hs
    rw [hs]
  have hsplit : stmts.take k ++ stmts.drop k = stmts := List.take_append_drop k stmts
  have hstep : parseStep (Stmt.sub name) st = .error .nestedSub ∨
      parseStep (Stmt.sub name) st = .error (.dupSubName name) := by
    rcases hbad with h | h
    · left
      simp [parseStep, h]
    · by_cases ht : topIsSub st.stack = true
      · left
        simp [parseStep, ht]
      · right
        simp [parseStep, ht, h]
  unfold parse
  rw [← hsplit, parseList_append]
  unfold parseSt at hk
  rw [hk, hdrop]
  simp only [parseList]
  rcases hstep with h | h <;> rw [h] <;> rfl

/-- Witness for C6 (amended): `sub A; sub A` is rejected. -/
theorem C6_sub_top_or_dup_rejected_witness :
    (parse [Stmt.sub "A", Stmt.sub "A"]).toOption = none :=
  C6_sub_top_or_dup_rejected [Stmt.sub "A", Stmt.sub "A"] 1
    ⟨[.ill, .sub "A" 0], [⟨.sub "A" 0, 1⟩], [("A", 1)]⟩ "A"
    rfl rfl (Or.inl rfl)

/-- Claim C7: in the minimal-engine interpreter, a `FnBegin` (the spec's
`SubBegin`) reached in straight-line flow advances the program counter by
`offset_to_end + 1`; `Call` stores `i + 1` in the single return-address
slot and jumps to the body start (`index + 1`); `FnEnd` (the spec's
`SubEnd`) returns to (and clears) the stored address, and panics — the
internal-consistency `unreachable!()` — when the slot is empty; the
program `sub A; print "x"; end; call A;` prints "x" exactly once and
terminates. -/
theorem C7_subroutine_call_return :
    (∀ (prog : MProgram) (st : RState) (name : String) (off : Nat),
      prog.stmts[st.i]? = some (.fnBegin name off) →
      mStep prog st = .next ⟨st.i + off + 1, st.ret_idx, st.out⟩) ∧
    (∀ (prog : MProgram) (st : RState) (name : String) (idx : Nat),
      prog.stmts[st.i]? = some (.call name) →
      prog.fns.lookup name = some idx →
      mStep prog st = .next ⟨idx + 1, some (st.i + 1), st.out⟩) ∧
    (∀ (prog : MProgram) (st : RState) (r : Nat),
      prog.stmts[st.i]? = some .fnEnd →
      st.ret_idx = some r →
      mStep prog st = .next ⟨r, none, st.out⟩) ∧
    (∀ (prog : MProgram) (st : RState),
      prog.stmts[st.i]? = some .fnEnd →
      st.ret_idx = none →
      mStep prog st = .panic) ∧
    parse_stmts [.fnBegin "A", .print "x", .fnEnd, .call "A"] = .ok exSubProg ∧
    runProg exSubProg 10 = .finished ["x"] := by
  refine ⟨?_, ?_, ?_, ?_, rfl, rfl⟩
  · intro prog st name off h
    simp [mStep, h]
  · intro prog st name idx h hf
    simp [mStep, h, hf]
  · intro prog st r h hr
    simp [mStep, h, hr]
  · intro prog st h hr
    simp [mStep, h, hr]

/-- Witness for C7: the step facts instantiated on the compiled
`sub A; print "x"; end; call A;` program (and on a stray `FnEnd`). -/
theorem C7_subroutine_call_return_witness :
    mStep exSubProg ⟨0, none, []⟩ = .next ⟨3, none, []⟩ ∧
    mStep exSubProg ⟨3, none, []⟩ = .next ⟨1, some 4, []⟩ ∧
    mStep exSubProg ⟨2, some 4, ["x"]⟩ = .next ⟨4, none, ["x"]⟩ ∧
    mStep ⟨[.fnEnd], []⟩ ⟨0, none, []⟩ = .panic :=
  ⟨C7_subroutine_call_return.1 exSubProg ⟨0, none, []⟩ "A" 2 rfl,
   C7_subroutine_call_return.2.1 exSubProg ⟨3, none, []⟩ "A" 0 rfl rfl,
   C7_subroutine_call_return.2.2.1 exSubProg ⟨2, some 4, ["x"]⟩ 4 rfl rfl,
   C7_subroutine_call_return.2.2.2.1 ⟨[.fnEnd], []⟩ ⟨0, none, []⟩ rfl rfl⟩

/-- A successful association-list lookup is a membership. -/
theorem lookup_mem {β : Type} {l : List (String × β)} {s : String} {v : β}
    (hv : List.lookup s l = some v) : (s, v) ∈ l := by
  induction l with
  | nil => simp [List.lookup] at hv
  | cons p rest ih =>
    obtain ⟨k, b⟩ := p
    rw [List.lookup] at hv
    cases hbk : s == k
    · rw [hbk] at hv
      exact List.mem_cons_of_mem _ (ih hv)
    · rw [hbk] at hv
      obtain rfl : b = v := by simpa using hv
      obtain rfl : s = k := by simpa using hbk
      exact List.mem_cons_self _ _

/-- A bound environment value: every binding returned by `get_var` fits in
the integer type. -/
theorem get_var_bounded {cs : CallStack} {s : String} {v : Variable}
    (hb : envBounded cs = true) (hv : get_var cs s = some v) :
    v.value ≤ USIZE_MAX := by
  have hmem : (s, v) ∈ cs := lookup_mem hv
  have := List.all_eq_true.mp hb _ hmem
  simpa using this

/-- `firstUnbound` is `none` exactly when no referenced identifier is
unbound. -/
theorem firstUnbound_eq_none_iff (e : Expr) (cs : CallStack) :
    firstUnbound e cs = none ↔ e.hasUnbound cs = false := by
  induction e with
  | identOrNum a =>
    cases a with
    | ident s =>
      cases hv : (get_var cs s).isNone <;>
        simp [firstUnbound, Expr.hasUnbound, Expr.refs, hv]
    | num n => simp [firstUnbound, Expr.hasUnbound, Expr.refs]
  | trueExpr l op r ih =>
    cases l with
    | ident s =>
      cases hv : (get_var cs s).isNone <;>
        simp [firstUnbound, Expr.hasUnbound, Expr.refs, hv] <;>
        simpa [Expr.hasUnbound] using ih
    | num n =>
      simpa [firstUnbound, Expr.hasUnbound, Expr.refs] using ih

/-- Full characterization of `Expr::eval` from exprs.rs under the `usize`
type invariants: the first unbound identifier (in evaluation order) gives
an identifier-not-found error; otherwise the result is the exact sum when
it fits and the overflow error when it does not. -/
theorem eval_characterize (e : Expr) (cs : CallStack)
    (hw : e.wfB = true) (hb : envBounded cs = true) :
    e.eval cs =
      (match firstUnbound e cs with
       | some s => .error (.identNotFound s)
       | none =>
         if e.sumVal cs ≤ USIZE_MAX then .ok (e.sumVal cs)
         else .error .overFlow) := by
  induction e with
  | identOrNum a =>
    cases a with
    | ident s =>
      cases hv : get_var cs s with
      | none => simp [Expr.eval, IdentOrNum.eval, firstUnbound, hv, Expr.sumVal]
      | some v =>
        have hvb := get_var_bounded hb hv
        simp [Expr.eval, IdentOrNum.eval, firstUnbound, hv, Expr.sumVal,
          atomVal, hvb]
    | num n =>
      have hn : n ≤ USIZE_MAX := by simpa [Expr.wfB, IdentOrNum.wfB] using hw
      simp [Expr.eval, IdentOrNum.eval, firstUnbound, Expr.sumVal, atomVal, hn]
  | trueExpr l op r ih =>
    have hwl : r.wfB = true := by
      simp [Expr.wfB] at hw
      exact hw.2
    have ihr := ih hwl
    cases op
    -- the left operand is an atom: evaluate it first
    cases l with
    | ident s =>
      cases hv : get_var cs s with
      | none =>
        simp [Expr.eval, IdentOrNum.eval, firstUnbound, hv]
      | some v =>
        have hvb := get_var_bounded hb hv
        cases hfu : firstUnbound r cs with
        | some s2 =>
          rw [hfu] at ihr
          simp [Expr.eval, IdentOrNum.eval, firstUnbound, hv, hfu, ihr]
        | none =>
          rw [hfu] at ihr
          by_cases hs : r.sumVal cs ≤ USIZE_MAX
          · rw [if_pos hs] at ihr
            simp only [Expr.eval, IdentOrNum.eval, hv, ihr, firstUnbound,
              Option.isNone_some, Bool.false_eq_true, if_false, hfu,
              Expr.sumVal, atomVal, Option.elim, checked_add]
            by_cases hvs : v.value + r.sumVal cs ≤ USIZE_MAX
            · simp [hvs]
            · simp [hvs]
          · rw [if_neg hs] at ihr
            have : ¬ (v.value + r.sumVal cs ≤ USIZE_MAX) := by omega
            simp [Expr.eval, IdentOrNum.eval, hv, ihr, firstUnbound, hfu,
              Expr.sumVal, atomVal, this]
    | num n =>
      have hn : n ≤ USIZE_MAX := by
        simp [Expr.wfB, IdentOrNum.wfB] at hw
        exact hw.1
      cases hfu : firstUnbound r cs with
      | some s2 =>
        rw [hfu] at ihr
        simp [Expr.eval, IdentOrNum.eval, firstUnbound, hfu, ihr]
      | none =>
        rw [hfu] at ihr
        by_cases hs : r.sumVal cs ≤ USIZE_MAX
        · rw [if_pos hs] at ihr
          simp only [Expr.eval, IdentOrNum.eval, ihr, firstUnbound, hfu,
            Expr.sumVal, atomVal, checked_add]
          by_cases hvs : n + r.sumVal cs ≤ USIZE_MAX
          · simp [hvs]
          · simp [hvs]
        · rw [if_neg hs] at ihr
          have : ¬ (n + r.sumVal cs ≤ USIZE_MAX) := by omega
          simp [Expr.eval, IdentOrNum.eval, ihr, firstUnbound, hfu,
            Expr.sumVal, atomVal, this]

/-! ### Structural-matching lemmas for the pending-block scan -/

/-- `scanGo` splits over append, shifting the position by the length of
the first part. -/
theorem scanGo_append (l1 l2 : List Stmt) (p : Nat) (sc : ScanSt) :
    scanGo (l1 ++ l2) p sc = scanGo l2 (p + l1.length) (scanGo l1 p sc) := by
  induction l1 generalizing p sc with
  | nil => simp [scanGo]
  | cons s rest ih =>
    simp only [List.cons_append, scanGo, List.length_cons]
    show scanGo (rest ++ l2) (p + 1) (scanStep p s sc) =
      scanGo l2 (p + (rest.length + 1)) (scanGo rest (p + 1) (scanStep p s sc))
    rw [ih]
    congr 1
    omega

/-- Unfolding the scan one statement at a time. -/
theorem scanAt_succ_of_get {stmts : List Stmt} {k : Nat} {s : Stmt}
    (h : stmts.get? k = some s) :
    scanAt stmts (k + 1) = scanStep k s (scanAt stmts k) := by
  have hk : k < stmts.length := List.get?_eq_some.mp h |>.1
  have h2 : stmts[k]? = some s := by
    rw [← List.get?_eq_getElem?]
    exact h
  have htake : stmts.take (k + 1) = stmts.take k ++ [s] := by
    rw [List.take_succ, h2]
    rfl
  unfold scanAt
  rw [htake, scanGo_append]
  have hlen : (stmts.take k).length = k := by
    simp [List.length_take]
    omega
  rw [hlen]
  simp [scanGo]

/-- Past the end of the statement list the scan is constant. -/
theorem scanAt_succ_of_none {stmts : List Stmt} {k : Nat}
    (h : stmts.get? k = none) :
    scanAt stmts (k + 1) = scanAt stmts k := by
  have hk : stmts.length ≤ k := List.get?_eq_none.mp h
  unfold scanAt
  rw [List.take_of_length_le hk, List.take_of_length_le (by omega)]

/-- Structural invariant of the scan: the pending stack is strictly
decreasing (top = most recent), its positions are earlier opener
positions, every matched pair is ordered and closed in the scanned
region, and a matched opener is no longer pending. -/
theorem scan_inv (stmts : List Stmt) (k : Nat) :
    (scanAt stmts k).stack.Pairwise (fun a b => b < a) ∧
    (∀ p ∈ (scanAt stmts k).stack, p < k ∧ openerAt stmts p) ∧
    (∀ pq ∈ (scanAt stmts k).matched,
      pq.1 < pq.2 ∧ pq.2 < k ∧ openerAt stmts pq.1) ∧
    (∀ pq ∈ (scanAt stmts k).matched, pq.1 ∉ (scanAt stmts k).stack) := by
  induction k with
  | zero => exact ⟨by simp [scanAt, scanGo], by simp [scanAt, scanGo],
      by simp [scanAt, scanGo], by simp [scanAt, scanGo]⟩
  | succ k ih =>
    obtain ⟨ih1, ih2, ih3, ih4⟩ := ih
    cases hs : stmts.get? k with
    | none =>
      rw [scanAt_succ_of_none hs]
      refine ⟨ih1, fun p hp => ⟨by have := (ih2 p hp).1; omega, (ih2 p hp).2⟩,
        fun pq hpq => ⟨(ih3 pq hpq).1, by have := (ih3 pq hpq).2.1; omega,
          (ih3 pq hpq).2.2⟩, ih4⟩
    | some s =>
      rw [scanAt_succ_of_get hs]
      have hbound : ∀ p ∈ (scanAt stmts k).stack, p < k + 1 := by
        intro p hp
        have := (ih2 p hp).1
        omega
      -- case analysis on the statement kind
      cases s with
      | sub name =>
        refine ⟨?_, ?_, ?_, ?_⟩
        · exact List.pairwise_cons.mpr ⟨fun p hp => (ih2 p hp).1, ih1⟩
        · intro p hp
          rcases List.mem_cons.mp hp with rfl | hp
          · exact ⟨by omega, ⟨_, hs, rfl⟩⟩
          · exact ⟨by have := (ih2 p hp).1; omega, (ih2 p hp).2⟩
        · intro pq hpq
          exact ⟨(ih3 pq hpq).1, by have := (ih3 pq hpq).2.1; omega,
            (ih3 pq hpq).2.2⟩
        · intro pq hpq
          have h4 := ih4 pq hpq
          have h2 := (ih3 pq hpq).1
          have h3 := (ih3 pq hpq).2.1
          intro hmem
          rcases List.mem_cons.mp hmem with h | h
          · omega
          · exact h4 h
      | while_ c =>
        refine ⟨?_, ?_, ?_, ?_⟩
        · exact List.pairwise_cons.mpr ⟨fun p hp => (ih2 p hp).1, ih1⟩
        · intro p hp
          rcases List.mem_cons.mp hp with rfl | hp
          · exact ⟨by omega, ⟨_, hs, rfl⟩⟩
          · exact ⟨by have := (ih2 p hp).1; omega, (ih2 p hp).2⟩
        · intro pq hpq
          exact ⟨(ih3 pq hpq).1, by have := (ih3 pq hpq).2.1; omega,
            (ih3 pq hpq).2.2⟩
        · intro pq hpq
          have h4 := ih4 pq hpq
          have h2 := (ih3 pq hpq).1
          have h3 := (ih3 pq hpq).2.1
          intro hmem
          rcases List.mem_cons.mp hmem with h | h
          · omega
          · exact h4 h
      | if_ c =>
        refine ⟨?_, ?_, ?_, ?_⟩
        · exact List.pairwise_cons.mpr ⟨fun p hp => (ih2 p hp).1, ih1⟩
        · intro p hp
          rcases List.mem_cons.mp hp with rfl | hp
          · exact ⟨by omega, ⟨_, hs, rfl⟩⟩
          · exact ⟨by have := (ih2 p hp).1; omega, (ih2 p hp).2⟩
        · intro pq hpq
          exact ⟨(ih3 pq hpq).1, by have := (ih3 pq hpq).2.1; omega,
            (ih3 pq hpq).2.2⟩
        · intro pq hpq
          have h4 := ih4 pq hpq
          have h2 := (ih3 pq hpq).1
          have h3 := (ih3 pq hpq).2.1
          intro hmem
          rcases List.mem_cons.mp hmem with h | h
          · omega
          · exact h4 h
      | elif c =>
        cases hst : (scanAt stmts k).stack with
        | nil =>
          simp only [scanStep, hst]
          refine ⟨by simp, by simp, ?_, by simp⟩
          intro pq hpq
          exact ⟨(ih3 pq hpq).1, by have := (ih3 pq hpq).2.1; omega,
            (ih3 pq hpq).2.2⟩
        | cons q rest =>
          simp only [scanStep, hst]
          rw [hst] at ih1 ih2 ih4
          have hq : q < k ∧ openerAt stmts q := ih2 q (List.mem_cons_self _ _)
          have hqrest : ∀ p ∈ rest, p < q := fun p hp =>
            (List.pairwise_cons.mp ih1).1 p hp
          refine ⟨?_, ?_, ?_, ?_⟩
          · refine List.pairwise_cons.mpr ⟨fun p hp => ?_,
              (List.pairwise_cons.mp ih1).2⟩
            have := hqrest p hp
            have := (ih2 p (List.mem_cons_of_mem _ hp)).1
            omega
          · intro p hp
            rcases List.mem_cons.mp hp with rfl | hp
            · exact ⟨by omega, ⟨_, hs, rfl⟩⟩
            · have := ih2 p (List.mem_cons_of_mem _ hp)
              exact ⟨by omega, this.2⟩
          · intro pq hpq
            rcases List.mem_cons.mp hpq with rfl | hpq
            · exact ⟨hq.1, by omega, hq.2⟩
            · exact ⟨(ih3 pq hpq).1, by have := (ih3 pq hpq).2.1; omega,
                (ih3 pq hpq).2.2⟩
          · intro pq hpq
            rcases List.mem_cons.mp hpq with rfl | hpq
            · intro hmem
              rcases List.mem_cons.mp hmem with h | h
              · omega
              · exact absurd (hqrest _ h) (by omega)
            · have h4 := ih4 pq hpq
              have h2 := (ih3 pq hpq).1
              have h3 := (ih3 pq hpq).2.1
              intro hmem
              rcases List.mem_cons.mp hmem with h | h
              · omega
              · exact h4 (List.mem_cons_of_mem _ h)
      | else_ =>
        cases hst : (scanAt stmts k).stack with
        | nil =>
          simp only [scanStep, hst]
          refine ⟨by simp, by simp, ?_, by simp⟩
          intro pq hpq
          exact ⟨(ih3 pq hpq).1, by have := (ih3 pq hpq).2.1; omega,
            (ih3 pq hpq).2.2⟩
        | cons q rest =>
          simp only [scanStep, hst]
          rw [hst] at ih1 ih2 ih4
          have hq : q < k ∧ openerAt stmts q := ih2 q (List.mem_cons_self _ _)
          have hqrest : ∀ p ∈ rest, p < q := fun p hp =>
            (List.pairwise_cons.mp ih1).1 p hp
          refine ⟨?_, ?_, ?_, ?_⟩
          · refine List.pairwise_cons.mpr ⟨fun p hp => ?_,
              (List.pairwise_cons.mp ih1).2⟩
            have := hqrest p hp
            have := (ih2 p (List.mem_cons_of_mem _ hp)).1
            omega
          · intro p hp
            rcases List.mem_cons.mp hp with rfl | hp
            · exact ⟨by omega, ⟨_, hs, rfl⟩⟩
            · have := ih2 p (List.mem_cons_of_mem _ hp)
              exact ⟨by omega, this.2⟩
          · intro pq hpq
            rcases List.mem_cons.mp hpq with rfl | hpq
            · exact ⟨hq.1, by omega, hq.2⟩
            · exact ⟨(ih3 pq hpq).1, by have := (ih3 pq hpq).2.1; omega,
                (ih3 pq hpq).2.2⟩
          · intro pq hpq
            rcases List.mem_cons.mp hpq with rfl | hpq
            · intro hmem
              rcases List.mem_cons.mp hmem with h | h
              · omega
              · exact absurd (hqrest _ h) (by omega)
            · have h4 := ih4 pq hpq
              have h2 := (ih3 pq hpq).1
              have h3 := (ih3 pq hpq).2.1
              intro hmem
              rcases List.mem_cons.mp hmem with h | h
              · omega
              · exact h4 (List.mem_cons_of_mem _ h)
      | end_ =>
        cases hst : (scanAt stmts k).stack with
        | nil =>
          simp only [scanStep, hst]
          refine ⟨by simp, by simp, ?_, by simp⟩
          intro pq hpq
          exact ⟨(ih3 pq hpq).1, by have := (ih3 pq hpq).2.1; omega,
            (ih3 pq hpq).2.2⟩
        | cons q rest =>
          simp only [scanStep, hst]
          rw [hst] at ih1 ih2 ih4
          have hq : q < k ∧ openerAt stmts q := ih2 q (List.mem_cons_self _ _)
          have hqrest : ∀ p ∈ rest, p < q := fun p hp =>
            (List.pairwise_cons.mp ih1).1 p hp
          refine ⟨(List.pairwise_cons.mp ih1).2, ?_, ?_, ?_⟩
          · intro p hp
            have := ih2 p (List.mem_cons_of_mem _ hp)
            exact ⟨by omega, this.2⟩
          · intro pq hpq
            rcases List.mem_cons.mp hpq with rfl | hpq
            · exact ⟨hq.1, by omega, hq.2⟩
            · exact ⟨(ih3 pq hpq).1, by have := (ih3 pq hpq).2.1; omega,
                (ih3 pq hpq).2.2⟩
          · intro pq hpq
            rcases List.mem_cons.mp hpq with rfl | hpq
            · exact fun h => absurd (hqrest _ h) (by omega)
            · exact fun h => ih4 pq hpq (List.mem_cons_of_mem _ h)
      | print args =>
        exact ⟨ih1, fun p hp => ⟨by have := (ih2 p hp).1; omega, (ih2 p hp).2⟩,
          fun pq hpq => ⟨(ih3 pq hpq).1, by have := (ih3 pq hpq).2.1; omega,
            (ih3 pq hpq).2.2⟩, ih4⟩
      | call name =>
        exact ⟨ih1, fun p hp => ⟨by have := (ih2 p hp).1; omega, (ih2 p hp).2⟩,
          fun pq hpq => ⟨(ih3 pq hpq).1, by have := (ih3 pq hpq).2.1; omega,
            (ih3 pq hpq).2.2⟩, ih4⟩
      | let_ name init is_mut =>
        exact ⟨ih1, fun p hp => ⟨by have := (ih2 p hp).1; omega, (ih2 p hp).2⟩,
          fun pq hpq => ⟨(ih3 pq hpq).1, by have := (ih3 pq hpq).2.1; omega,
            (ih3 pq hpq).2.2⟩, ih4⟩
      | modify name e =>
        exact ⟨ih1, fun p hp => ⟨by have := (ih2 p hp).1; omega, (ih2 p hp).2⟩,
          fun pq hpq => ⟨(ih3 pq hpq).1, by have := (ih3 pq hpq).2.1; omega,
            (ih3 pq hpq).2.2⟩, ih4⟩
      | input pr =>
        exact ⟨ih1, fun p hp => ⟨by have := (ih2 p hp).1; omega, (ih2 p hp).2⟩,
          fun pq hpq => ⟨(ih3 pq hpq).1, by have := (ih3 pq hpq).2.1; omega,
            (ih3 pq hpq).2.2⟩, ih4⟩
      | roll c f =>
        exact ⟨ih1, fun p hp => ⟨by have := (ih2 p hp).1; omega, (ih2 p hp).2⟩,
          fun pq hpq => ⟨(ih3 pq hpq).1, by have := (ih3 pq hpq).2.1; omega,
            (ih3 pq hpq).2.2⟩, ih4⟩
      | halt =>
        exact ⟨ih1, fun p hp => ⟨by have := (ih2 p hp).1; omega, (ih2 p hp).2⟩,
          fun pq hpq => ⟨(ih3 pq hpq).1, by have := (ih3 pq hpq).2.1; omega,
            (ih3 pq hpq).2.2⟩, ih4⟩
      | break_ =>
        exact ⟨ih1, fun p hp => ⟨by have := (ih2 p hp).1; omega, (ih2 p hp).2⟩,
          fun pq hpq => ⟨(ih3 pq hpq).1, by have := (ih3 pq hpq).2.1; omega,
            (ih3 pq hpq).2.2⟩, ih4⟩
      | enableWait =>
        exact ⟨ih1, fun p hp => ⟨by have := (ih2 p hp).1; omega, (ih2 p hp).2⟩,
          fun pq hpq => ⟨(ih3 pq hpq).1, by have := (ih3 pq hpq).2.1; omega,
            (ih3 pq hpq).2.2⟩, ih4⟩
      | disableWait =>
        exact ⟨ih1, fun p hp => ⟨by have := (ih2 p hp).1; omega, (ih2 p hp).2⟩,
          fun pq hpq => ⟨(ih3 pq hpq).1, by have := (ih3 pq hpq).2.1; omega,
            (ih3 pq hpq).2.2⟩, ih4⟩

/-- One scan step only adds matched pairs. -/
theorem matched_sub_step (stmts : List Stmt) (k : Nat) :
    ∀ pq, pq ∈ (scanAt stmts k).matched → pq ∈ (scanAt stmts (k + 1)).matched := by
  intro pq hpq
  cases hs : stmts.get? k with
  | none => rw [scanAt_succ_of_none hs]; exact hpq
  | some s =>
    rw [scanAt_succ_of_get hs]
    cases s with
    | elif c =>
      cases hst : (scanAt stmts k).stack with
      | nil => simpa [scanStep, hst] using hpq
      | cons q rest =>
        simp only [scanStep, hst]
        exact List.mem_cons_of_mem _ hpq
    | else_ =>
      cases hst : (scanAt stmts k).stack with
      | nil => simpa [scanStep, hst] using hpq
      | cons q rest =>
        simp only [scanStep, hst]
        exact List.mem_cons_of_mem _ hpq
    | end_ =>
      cases hst : (scanAt stmts k).stack with
      | nil => simpa [scanStep, hst] using hpq
      | cons q rest =>
        simp only [scanStep, hst]
        exact List.mem_cons_of_mem _ hpq
    | sub name => exact hpq
    | while_ c => exact hpq
    | if_ c => exact hpq
    | print args => exact hpq
    | call name => exact hpq
    | let_ name init is_mut => exact hpq
    | modify name e => exact hpq
    | input pr => exact hpq
    | roll c f => exact hpq
    | halt => exact hpq
    | break_ => exact hpq
    | enableWait => exact hpq
    | disableWait => exact hpq

/-- Matched pairs persist to every later scan state. -/
theorem matched_mono (stmts : List Stmt) {k k2 : Nat} (h : k ≤ k2) :
    ∀ pq, pq ∈ (scanAt stmts k).matched → pq ∈ (scanAt stmts k2).matched := by
  induction k2 with
  | zero =>
    have : k = 0 := by omega
    subst this
    exact fun pq hpq => hpq
  | succ k2 ih =>
    intro pq hpq
    rcases Nat.lt_or_ge k (k2 + 1) with hlt | hge
    · exact matched_sub_step stmts k2 pq (ih (by omega) pq hpq)
    · have : k = k2 + 1 := by omega
      subst this
      exact hpq

/-- A pair present after one more step was already there, or was closed at
this very position (its opener being the top of the pending stack). -/
theorem matched_succ_cases (stmts : List Stmt) (k : Nat) :
    ∀ pq, pq ∈ (scanAt stmts (k + 1)).matched →
      pq ∈ (scanAt stmts k).matched ∨
        (pq.2 = k ∧ (scanAt stmts k).stack.head? = some pq.1) := by
  intro pq hpq
  cases hs : stmts.get? k with
  | none => rw [scanAt_succ_of_none hs] at hpq; exact Or.inl hpq
  | some s =>
    rw [scanAt_succ_of_get hs] at hpq
    cases s with
    | elif c =>
      cases hst : (scanAt stmts k).stack with
      | nil => simp only [scanStep, hst] at hpq; exact Or.inl hpq
      | cons q rest =>
        simp only [scanStep, hst] at hpq
        rcases List.mem_cons.mp hpq with rfl | h
        · exact Or.inr ⟨rfl, rfl⟩
        · exact Or.inl h
    | else_ =>
      cases hst : (scanAt stmts k).stack with
      | nil => simp only [scanStep, hst] at hpq; exact Or.inl hpq
      | cons q rest =>
        simp only [scanStep, hst] at hpq
        rcases List.mem_cons.mp hpq with rfl | h
        · exact Or.inr ⟨rfl, rfl⟩
        · exact Or.inl h
    | end_ =>
      cases hst : (scanAt stmts k).stack with
      | nil => simp only [scanStep, hst] at hpq; exact Or.inl hpq
      | cons q rest =>
        simp only [scanStep, hst] at hpq
        rcases List.mem_cons.mp hpq with rfl | h
        · exact Or.inr ⟨rfl, rfl⟩
        · exact Or.inl h
    | sub name => exact Or.inl hpq
    | while_ c => exact Or.inl hpq
    | if_ c => exact Or.inl hpq
    | print args => exact Or.inl hpq
    | call name => exact Or.inl hpq
    | let_ name init is_mut => exact Or.inl hpq
    | modify name e => exact Or.inl hpq
    | input pr => exact Or.inl hpq
    | roll c f => exact Or.inl hpq
    | halt => exact Or.inl hpq
    | break_ => exact Or.inl hpq
    | enableWait => exact Or.inl hpq
    | disableWait => exact Or.inl hpq

/-- Every matched pair was recorded exactly at its closing position. -/
theorem matched_at_close (stmts : List Stmt) (K : Nat) :
    ∀ pq, pq ∈ (scanAt stmts K).matched →
      pq.2 + 1 ≤ K ∧ pq ∈ (scanAt stmts (pq.2 + 1)).matched := by
  induction K with
  | zero => intro pq hpq; simp [scanAt, scanGo] at hpq
  | succ K ih =>
    intro pq hpq
    rcases matched_succ_cases stmts K pq hpq with h | ⟨h2, _⟩
    · have := ih pq h
      exact ⟨by omega, this.2⟩
    · refine ⟨by omega, ?_⟩
      rw [h2]
      exact hpq

/-- At its closing position the opener of a matched pair is on top of the
pending stack. -/
theorem opener_pending_at_close (stmts : List Stmt) (K : Nat) :
    ∀ pq, pq ∈ (scanAt stmts K).matched →
      (scanAt stmts pq.2).stack.head? = some pq.1 := by
  intro pq hpq
  have hc := matched_at_close stmts K pq hpq
  rcases matched_succ_cases stmts pq.2 pq hc.2 with h | ⟨_, hh⟩
  · have := (scan_inv stmts pq.2).2.2.1 pq h
    omega
  · exact hh

/-- A pending opener stays pending at every earlier time after its push. -/
theorem stack_mem_pred (stmts : List Stmt) (k : Nat) :
    ∀ p, p ∈ (scanAt stmts (k + 1)).stack →
      p = k ∨ p ∈ (scanAt stmts k).stack := by
  intro p hp
  cases hs : stmts.get? k with
  | none => rw [scanAt_succ_of_none hs] at hp; exact Or.inr hp
  | some s =>
    rw [scanAt_succ_of_get hs] at hp
    cases s with
    | elif c =>
      cases hst : (scanAt stmts k).stack with
      | nil => simp only [scanStep, hst] at hp; exact Or.inr hp
      | cons q rest =>
        simp only [scanStep, hst] at hp
        rcases List.mem_cons.mp hp with rfl | h
        · exact Or.inl rfl
        · exact Or.inr (List.mem_cons_of_mem _ h)
    | else_ =>
      cases hst : (scanAt stmts k).stack with
      | nil => simp only [scanStep, hst] at hp; exact Or.inr hp
      | cons q rest =>
        simp only [scanStep, hst] at hp
        rcases List.mem_cons.mp hp with rfl | h
        · exact Or.inl rfl
        · exact Or.inr (List.mem_cons_of_mem _ h)
    | end_ =>
      cases hst : (scanAt stmts k).stack with
      | nil => simp only [scanStep, hst] at hp; exact Or.inr hp
      | cons q rest =>
        simp only [scanStep, hst] at hp
        exact Or.inr (List.mem_cons_of_mem _ hp)
    | sub name =>
      rcases List.mem_cons.mp hp with rfl | h
      · exact Or.inl rfl
      · exact Or.inr h
    | while_ c =>
      rcases List.mem_cons.mp hp with rfl | h
      · exact Or.inl rfl
      · exact Or.inr h
    | if_ c =>
      rcases List.mem_cons.mp hp with rfl | h
      · exact Or.inl rfl
      · exact Or.inr h
    | print args => exact Or.inr hp
    | call name => exact Or.inr hp
    | let_ name init is_mut => exact Or.inr hp
    | modify name e => exact Or.inr hp
    | input pr => exact Or.inr hp
    | roll c f => exact Or.inr hp
    | halt => exact Or.inr hp
    | break_ => exact Or.inr hp
    | enableWait => exact Or.inr hp
    | disableWait => exact Or.inr hp

/-- A position pending at time `q` was already pending at any earlier time
strictly after its own position. -/
theorem stack_persist (stmts : List Stmt) {p q k : Nat}
    (hq : p ∈ (scanAt stmts q).stack) (h1 : p < k) (h2 : k ≤ q) :
    p ∈ (scanAt stmts k).stack := by
  induction q with
  | zero =>
    have : k = 0 := by omega
    subst this
    exact hq
  | succ q ih =>
    rcases Nat.lt_or_ge k (q + 1) with hlt | hge
    · rcases stack_mem_pred stmts q p hq with rfl | h
      · omega
      · exact ih h (by omega)
    · have : k = q + 1 := by omega
      subst this
      exact hq

/-- Claim C8: under the `usize` type invariants of exprs.rs, evaluation
returns an identifier-not-found error exactly when the expression
references an unbound identifier; when every identifier is bound it
returns the overflow error exactly when the exact mathematical sum exceeds
the maximum representable integer, and otherwise the exact sum — never a
wrapped or saturated value. -/
theorem C8_eval_exact (e : Expr) (cs : CallStack)
    (hw : e.wfB = true) (hb : envBounded cs = true) :
    ((∃ s, e.eval cs = .error (.identNotFound s)) ↔ e.hasUnbound cs = true) ∧
    (e.hasUnbound cs = false →
      (e.eval cs = .error .overFlow ↔ USIZE_MAX < e.sumVal cs)) ∧
    (e.hasUnbound cs = false → e.sumVal cs ≤ USIZE_MAX →
      e.eval cs = .ok (e.sumVal cs)) := by
  have hc := eval_characterize e cs hw hb
  refine ⟨?_, ?_, ?_⟩
  · cases hfu : firstUnbound e cs with
    | some s =>
      rw [hfu] at hc
      have hu : e.hasUnbound cs = true := by
        by_contra h
        have := (firstUnbound_eq_none_iff e cs).mpr (by simpa using h)
        rw [this] at hfu
        exact Option.noConfusion hfu
      simp [hc, hu]
    | none =>
      rw [hfu] at hc
      have hu : e.hasUnbound cs = false := (firstUnbound_eq_none_iff e cs).mp hfu
      rw [hu]
      simp only [Bool.false_eq_true, iff_false]
      rintro ⟨s, hs⟩
      rw [hc] at hs
      by_cases h : e.sumVal cs ≤ USIZE_MAX <;> simp [h] at hs
  · intro hu
    have hfu := (firstUnbound_eq_none_iff e cs).mpr hu
    rw [hfu] at hc
    rw [hc]
    by_cases h : e.sumVal cs ≤ USIZE_MAX <;> simp [h] <;> omega
  · intro hu hs
    have hfu := (firstUnbound_eq_none_iff e cs).mpr hu
    rw [hfu] at hc
    rw [hc, if_pos hs]

/-! ### Preservation of the compiler invariant -/

/-- Patching a pending `If`/`ElIf` with `offset_to_next` yields the same
opener with the new offset; on any other opener `patchNext` is `none`. -/
theorem patchNext_open_eq {s : Stmt} {off : Nat} {p : Inst}
    (hop : s.isOpener = true)
    (h : patchNext (openInstOff s 0) off = some p) : p = openInstOff s off := by
  cases s <;> simp_all [openInstOff, patchNext, Stmt.isOpener]

/-- Patching any pending opener with `offset_to_end` yields the same opener
with the new offset. -/
theorem patchEnd_open_eq {s : Stmt} {off : Nat} {p : Inst}
    (hop : s.isOpener = true)
    (h : patchEnd (openInstOff s 0) off = some p) : p = openInstOff s off := by
  cases s <;> simp_all [openInstOff, patchEnd, Stmt.isOpener]

/-- Appending an instruction does not disturb earlier positions. -/
theorem get?_append_one {l : List Inst} {i : Nat} {x y : Inst}
    (h : l.get? i = some x) : (l ++ [y]).get? i = some x := by
  rw [List.get?_append (List.get?_eq_some.mp h).1]
  exact h

/-- A statement that neither pushes nor pops only appends its instruction;
the invariant carries over. -/
theorem Inv_simple {stmts : List Stmt} {k : Nat} {st : PState} {s : Stmt}
    (hinv : Inv stmts k st) (hs : stmts.get? k = some s)
    (hscan : scanStep k s (scanAt stmts k) = scanAt stmts k)
    (x : Inst) (subs2 : List (String × Nat)) :
    Inv stmts (k + 1) ⟨st.insts ++ [x], st.stack, subs2⟩ := by
  obtain ⟨hlen, hmap, hstk, hmat⟩ := hinv
  refine ⟨by simp [hlen], ?_, ?_, ?_⟩
  · rw [scanAt_succ_of_get hs, hscan]
    exact hmap
  · intro e he
    obtain ⟨s0, hs0, hop0, hkind0, hget0⟩ := hstk e he
    exact ⟨s0, hs0, hop0, hkind0, get?_append_one hget0⟩
  · intro pq hpq
    rw [scanAt_succ_of_get hs, hscan] at hpq
    obtain ⟨s0, hs0, hop0, hget0⟩ := hmat pq hpq
    exact ⟨s0, hs0, hop0, get?_append_one hget0⟩

/-- A block opener appends its offset-0 instruction and pushes a pending
entry; the invariant carries over. -/
theorem Inv_push {stmts : List Stmt} {k : Nat} {st : PState} {s : Stmt}
    (hinv : Inv stmts k st) (hs : stmts.get? k = some s)
    (hop : s.isOpener = true)
    (hscan : scanStep k s (scanAt stmts k) =
      ⟨k :: (scanAt stmts k).stack, (scanAt stmts k).matched⟩)
    (subs2 : List (String × Nat)) :
    Inv stmts (k + 1)
      ⟨st.insts ++ [openInstOff s 0],
       ⟨openInstOff s 0, st.insts.length⟩ :: st.stack, subs2⟩ := by
  obtain ⟨hlen, hmap, hstk, hmat⟩ := hinv
  refine ⟨by simp [hlen], ?_, ?_, ?_⟩
  · rw [scanAt_succ_of_get hs, hscan]
    simp [hlen, hmap]
  · intro e he
    rcases List.mem_cons.mp he with rfl | he
    · refine ⟨s, by simpa [hlen] using hs, hop, rfl, ?_⟩
      exact List.get?_concat_length _ _
    · obtain ⟨s0, hs0, hop0, hkind0, hget0⟩ := hstk e he
      exact ⟨s0, hs0, hop0, hkind0, get?_append_one hget0⟩
  · intro pq hpq
    rw [scanAt_succ_of_get hs, hscan] at hpq
    obtain ⟨s0, hs0, hop0, hget0⟩ := hmat pq hpq
    exact ⟨s0, hs0, hop0, get?_append_one hget0⟩

/-- An `ElIf`/`Else` pops the pending top, patches its offset to the
position distance, and pushes itself; the invariant carries over. -/
theorem Inv_close_push {stmts : List Stmt} {k : Nat} {st : PState} {s : Stmt}
    (hinv : Inv stmts k st) (hs : stmts.get? k = some s)
    (hop : s.isOpener = true)
    {prev : WaitsEnd} {rest : List WaitsEnd} (hstack : st.stack = prev :: rest)
    {pinst : Inst}
    (hpatch : ∀ s0, prev.kind = openInstOff s0 0 → s0.isOpener = true →
      pinst = openInstOff s0 (st.insts.length - prev.index))
    (hscan : ∀ q screst, (scanAt stmts k).stack = q :: screst →
      scanStep k s (scanAt stmts k) =
        ⟨k :: screst, (q, k) :: (scanAt stmts k).matched⟩)
    (subs2 : List (String × Nat)) :
    Inv stmts (k + 1)
      ⟨(st.insts.set prev.index pinst) ++ [openInstOff s 0],
       ⟨openInstOff s 0, st.insts.length⟩ :: rest, subs2⟩ := by
  obtain ⟨hlen, hmap, hstk, hmat⟩ := hinv
  rw [hstack] at hmap
  cases hsc : (scanAt stmts k).stack with
  | nil => rw [hsc] at hmap; simp at hmap
  | cons q screst =>
    rw [hsc] at hmap
    simp only [List.map_cons, List.cons.injEq] at hmap
    obtain ⟨hqidx, hrestmap⟩ := hmap
    have hscan2 := hscan q screst hsc
    obtain ⟨sp, hsp, hopp, hkind, hgetp⟩ :=
      hstk prev (by rw [hstack]; exact List.mem_cons_self _ _)
    have hpeq : pinst = openInstOff sp (st.insts.length - prev.index) :=
      hpatch sp hkind hopp
    have hscinv := scan_inv stmts k
    have hq_lt : q < k :=
      (hscinv.2.1 q (by rw [hsc]; exact List.mem_cons_self _ _)).1
    have hpair : ∀ z ∈ screst, z < q := by
      have h1 := hscinv.1
      rw [hsc] at h1
      exact (List.pairwise_cons.mp h1).1
    have hdisj : ∀ pq ∈ (scanAt stmts k).matched, pq.1 ≠ q := by
      intro pq hpq hqq
      have h2 := hscinv.2.2.2 pq hpq
      rw [hsc] at h2
      exact h2 (hqq ▸ List.mem_cons_self _ _)
    have hplt : prev.index < st.insts.length := (List.get?_eq_some.mp hgetp).1
    refine ⟨by simp [hlen], ?_, ?_, ?_⟩
    · rw [scanAt_succ_of_get hs, hscan2]
      simp [hlen, hrestmap]
    · intro e he
      rcases List.mem_cons.mp he with rfl | he
      · refine ⟨s, by simpa [hlen] using hs, hop, rfl, ?_⟩
        have hL : (st.insts.set prev.index pinst).length = st.insts.length :=
          List.length_set _ _ _
        rw [show (st.insts.length : Nat) = (st.insts.set prev.index pinst).length
          from hL.symm]
        exact List.get?_concat_length _ _
      · obtain ⟨s0, hs0, hop0, hkind0, hget0⟩ :=
          hstk e (by rw [hstack]; exact List.mem_cons_of_mem _ he)
        refine ⟨s0, hs0, hop0, hkind0, ?_⟩
        have hmem2 : e.index ∈ screst.map (· + 1) := by
          rw [← hrestmap]
          exact List.mem_map_of_mem _ he
        obtain ⟨z, hz1, hz2⟩ := List.mem_map.mp hmem2
        have hzq := hpair z hz1
        have hne : prev.index ≠ e.index := by omega
        have hlt0 : e.index < st.insts.length := (List.get?_eq_some.mp hget0).1
        rw [List.get?_append (by simpa using hlt0), List.get?_set_ne _ _ hne]
        exact hget0
    · intro pq hpq
      rw [scanAt_succ_of_get hs, hscan2] at hpq
      rcases List.mem_cons.mp hpq with rfl | hpq
      · refine ⟨sp, ?_, hopp, ?_⟩
        · rw [hqidx] at hsp
          simpa using hsp
        · show ((st.insts.set prev.index pinst) ++ [openInstOff s 0]).get?
            ((q, k).1 + 1) = some (openInstOff sp ((q, k).2 - (q, k).1))
          have hq1 : (q, k).1 + 1 = prev.index := by
            simp [hqidx]
          rw [hq1, List.get?_append (by simpa using hplt),
            List.get?_set_eq_of_lt _ hplt, hpeq]
          have : st.insts.length - prev.index = (q, k).2 - (q, k).1 := by
            simp only [hlen, hqidx]
            omega
          rw [this]
      · obtain ⟨s0, hs0, hop0, hget0⟩ := hmat pq hpq
        refine ⟨s0, hs0, hop0, ?_⟩
        have hne : prev.index ≠ pq.1 + 1 := by
          have := hdisj pq hpq
          omega
        have hlt0 : pq.1 + 1 < st.insts.length := (List.get?_eq_some.mp hget0).1
        rw [List.get?_append (by simpa using hlt0), List.get?_set_ne _ _ hne]
        exact hget0

/-- An `End` pops the pending top, patches its offset to the position
distance, and appends the `End` instruction; the invariant carries over. -/
theorem Inv_close_pop {stmts : List Stmt} {k : Nat} {st : PState}
    (hinv : Inv stmts k st) (hs : stmts.get? k = some .end_)
    {prev : WaitsEnd} {rest : List WaitsEnd} (hstack : st.stack = prev :: rest)
    {pinst : Inst}
    (hpatch : ∀ s0, prev.kind = openInstOff s0 0 → s0.isOpener = true →
      pinst = openInstOff s0 (st.insts.length - prev.index))
    (subs2 : List (String × Nat)) :
    Inv stmts (k + 1)
      ⟨(st.insts.set prev.index pinst) ++ [Inst.end_], rest, subs2⟩ := by
  obtain ⟨hlen, hmap, hstk, hmat⟩ := hinv
  rw [hstack] at hmap
  cases hsc : (scanAt stmts k).stack with
  | nil => rw [hsc] at hmap; simp at hmap
  | cons q screst =>
    rw [hsc] at hmap
    simp only [List.map_cons, List.cons.injEq] at hmap
    obtain ⟨hqidx, hrestmap⟩ := hmap
    have hscan2 : scanStep k Stmt.end_ (scanAt stmts k) =
        ⟨screst, (q, k) :: (scanAt stmts k).matched⟩ := by
      simp [scanStep, hsc]
    obtain ⟨sp, hsp, hopp, hkind, hgetp⟩ :=
      hstk prev (by rw [hstack]; exact List.mem_cons_self _ _)
    have hpeq : pinst = openInstOff sp (st.insts.length - prev.index) :=
      hpatch sp hkind hopp
    have hscinv := scan_inv stmts k
    have hq_lt : q < k :=
      (hscinv.2.1 q (by rw [hsc]; exact List.mem_cons_self _ _)).1
    have hpair : ∀ z ∈ screst, z < q := by
      have h1 := hscinv.1
      rw [hsc] at h1
      exact (List.pairwise_cons.mp h1).1
    have hdisj : ∀ pq ∈ (scanAt stmts k).matched, pq.1 ≠ q := by
      intro pq hpq hqq
      have h2 := hscinv.2.2.2 pq hpq
      rw [hsc] at h2
      exact h2 (hqq ▸ List.mem_cons_self _ _)
    have hplt : prev.index < st.insts.length := (List.get?_eq_some.mp hgetp).1
    refine ⟨by simp [hlen], ?_, ?_, ?_⟩
    · rw [scanAt_succ_of_get hs, hscan2]
      simpa using hrestmap
    · intro e he
      obtain ⟨s0, hs0, hop0, hkind0, hget0⟩ :=
        hstk e (by rw [hstack]; exact List.mem_cons_of_mem _ he)
      refine ⟨s0, hs0, hop0, hkind0, ?_⟩
      have hmem2 : e.index ∈ screst.map (· + 1) := by
        rw [← hrestmap]
        exact List.mem_map_of_mem _ he
      obtain ⟨z, hz1, hz2⟩ := List.mem_map.mp hmem2
      have hzq := hpair z hz1
      have hne : prev.index ≠ e.index := by omega
      have hlt0 : e.index < st.insts.length := (List.get?_eq_some.mp hget0).1
      rw [List.get?_append (by simpa using hlt0), List.get?_set_ne _ _ hne]
      exact hget0
    · intro pq hpq
      rw [scanAt_succ_of_get hs, hscan2] at hpq
      rcases List.mem_cons.mp hpq with rfl | hpq
      · refine ⟨sp, ?_, hopp, ?_⟩
        · rw [hqidx] at hsp
          simpa using hsp
        · show ((st.insts.set prev.index pinst) ++ [Inst.end_]).get?
            ((q, k).1 + 1) = some (openInstOff sp ((q, k).2 - (q, k).1))
          have hq1 : (q, k).1 + 1 = prev.index := by
            simp [hqidx]
          rw [hq1, List.get?_append (by simpa using hplt),
            List.get?_set_eq_of_lt _ hplt, hpeq]
          have : st.insts.length - prev.index = (q, k).2 - (q, k).1 := by
            simp only [hlen, hqidx]
            omega
          rw [this]
      · obtain ⟨s0, hs0, hop0, hget0⟩ := hmat pq hpq
        refine ⟨s0, hs0, hop0, ?_⟩
        have hne : prev.index ≠ pq.1 + 1 := by
          have := hdisj pq hpq
          omega
        have hlt0 : pq.1 + 1 < st.insts.length := (List.get?_eq_some.mp hget0).1
        rw [List.get?_append (by simpa using hlt0), List.get?_set_ne _ _ hne]
        exact hget0

/-- One successful compiler step preserves the simulation invariant. -/
theorem parse_step_preserve {stmts : List Stmt} {k : Nat} {st st2 : PState}
    {s : Stmt} (hinv : Inv stmts k st) (hs : stmts.get? k = some s)
    (hstep : parseStep s st = .ok st2) :
    Inv stmts (k + 1) st2 := by
  cases s with
  | print args =>
    simp only [parseStep, Except.ok.injEq] at hstep
    subst hstep
    exact Inv_simple hinv hs rfl _ _
  | call name =>
    simp only [parseStep, Except.ok.injEq] at hstep
    subst hstep
    exact Inv_simple hinv hs rfl _ _
  | input pr =>
    simp only [parseStep, Except.ok.injEq] at hstep
    subst hstep
    exact Inv_simple hinv hs rfl _ _
  | roll c f =>
    simp only [parseStep, Except.ok.injEq] at hstep
    subst hstep
    exact Inv_simple hinv hs rfl _ _
  | halt =>
    simp only [parseStep, Except.ok.injEq] at hstep
    subst hstep
    exact Inv_simple hinv hs rfl _ _
  | break_ =>
    simp only [parseStep, Except.ok.injEq] at hstep
    subst hstep
    exact Inv_simple hinv hs rfl _ _
  | enableWait =>
    simp only [parseStep, Except.ok.injEq] at hstep
    subst hstep
    exact Inv_simple hinv hs rfl _ _
  | disableWait =>
    simp only [parseStep, Except.ok.injEq] at hstep
    subst hstep
    exact Inv_simple hinv hs rfl _ _
  | let_ name init is_mut =>
    cases hb : startsWithUnderscore name with
    | true => simp [parseStep, hb] at hstep
    | false =>
      simp only [parseStep, hb, Bool.false_eq_true, if_false,
        Except.ok.injEq] at hstep
      subst hstep
      exact Inv_simple hinv hs rfl _ _
  | modify name e =>
    cases hb : startsWithUnderscore name with
    | true => simp [parseStep, hb] at hstep
    | false =>
      simp only [parseStep, hb, Bool.false_eq_true, if_false,
        Except.ok.injEq] at hstep
      subst hstep
      exact Inv_simple hinv hs rfl _ _
  | sub name =>
    cases ht : topIsSub st.stack with
    | true => simp [parseStep, ht] at hstep
    | false =>
      cases hd : (st.subs.lookup name).isSome with
      | true => simp [parseStep, ht, hd] at hstep
      | false =>
        simp only [parseStep, ht, hd, Bool.false_eq_true, if_false,
          Except.ok.injEq] at hstep
        subst hstep
        exact Inv_push hinv hs rfl rfl _
  | while_ c =>
    simp only [parseStep, Except.ok.injEq] at hstep
    subst hstep
    exact Inv_push hinv hs rfl rfl _
  | if_ c =>
    simp only [parseStep, Except.ok.injEq] at hstep
    subst hstep
    exact Inv_push hinv hs rfl rfl _
  | elif c =>
    cases hstack : st.stack with
    | nil => simp [parseStep, hstack] at hstep
    | cons prev rest =>
      cases hpt : patchNext prev.kind (st.insts.length - prev.index) with
      | none => simp [parseStep, hstack, hpt] at hstep
      | some pinst =>
        simp only [parseStep, hstack, hpt, Except.ok.injEq] at hstep
        subst hstep
        exact Inv_close_push hinv hs rfl hstack
          (fun s0 hk0 hop0 => patchNext_open_eq hop0 (by rw [← hk0]; exact hpt))
          (fun q screst hsc => by simp [scanStep, hsc]) _
  | else_ =>
    cases hstack : st.stack with
    | nil => simp [parseStep, hstack] at hstep
    | cons prev rest =>
      cases hpt : patchNext prev.kind (st.insts.length - prev.index) with
      | none => simp [parseStep, hstack, hpt] at hstep
      | some pinst =>
        simp only [parseStep, hstack, hpt, Except.ok.injEq] at hstep
        subst hstep
        exact Inv_close_push hinv hs rfl hstack
          (fun s0 hk0 hop0 => patchNext_open_eq hop0 (by rw [← hk0]; exact hpt))
          (fun q screst hsc => by simp [scanStep, hsc]) _
  | end_ =>
    cases hstack : st.stack with
    | nil => simp [parseStep, hstack] at hstep
    | cons prev rest =>
      cases hpt : patchEnd prev.kind (st.insts.length - prev.index) with
      | none => simp [parseStep, hstack, hpt] at hstep
      | some pinst =>
        simp only [parseStep, hstack, hpt, Except.ok.injEq] at hstep
        subst hstep
        exact Inv_close_pop hinv hs hstack
          (fun s0 hk0 hop0 => patchEnd_open_eq hop0 (by rw [← hk0]; exact hpt)) _

/-- The invariant holds at every prefix of a successful compilation. -/
theorem parse_inv_at {stmts : List Stmt} (k : Nat) {st : PState}
    (hk : k ≤ stmts.length) (h : parseSt stmts k = .ok st) :
    Inv stmts k st := by
  induction k generalizing st with
  | zero =>
    have hst : st = initPState := by
      have : parseSt stmts 0 = .ok initPState := rfl
      rw [this] at h
      exact (Except.ok.inj h).symm
    subst hst
    refine ⟨rfl, rfl, ?_, ?_⟩
    · intro e he
      simp [initPState] at he
    · intro pq hpq
      simp [scanAt, scanGo] at hpq
  | succ k ih =>
    have hk2 : k < stmts.length := by omega
    obtain ⟨s, hs⟩ : ∃ s, stmts.get? k = some s := by
      cases hg : stmts.get? k with
      | none =>
        have := List.get?_eq_none.mp hg
        omega
      | some s => exact ⟨s, rfl⟩
    have hgelem : stmts[k]? = some s := by
      rw [← List.get?_eq_getElem?]
      exact hs
    have htake : stmts.take (k + 1) = stmts.take k ++ [s] := by
      rw [List.take_succ, hgelem]
      rfl
    unfold parseSt at h
    rw [htake, parseList_append] at h
    cases hq : parseList (stmts.take k) initPState with
    | error e => rw [hq] at h; simp at h
    | ok st1 =>
      rw [hq] at h
      simp only [parseList] at h
      cases hstep : parseStep s st1 with
      | error e => rw [hstep] at h; simp at h
      | ok st2 =>
        rw [hstep] at h
        simp only [parseList, Except.ok.injEq] at h
        subst h
        exact parse_step_preserve (ih (by omega) hq) hs hstep

/-- A successful compilation succeeds on every prefix. -/
theorem parse_prefix_ok {stmts : List Stmt} {prog : Program}
    (h : parse stmts = .ok prog) (k : Nat) :
    ∃ st, parseSt stmts k = .ok st := by
  unfold parse at h
  cases hp : parseList stmts initPState with
  | error e => rw [hp] at h; simp at h
  | ok stF =>
    have hsplit := parseList_append (stmts.take k) (stmts.drop k) initPState
    rw [List.take_append_drop] at hsplit
    rw [hp] at hsplit
    cases hq : parseSt stmts k with
    | ok st => exact ⟨st, rfl⟩
    | error e =>
      unfold parseSt at hq
      rw [hq] at hsplit
      simp at hsplit

/-- The final compiler state of a successful compilation. -/
theorem parse_final {stmts : List Stmt} {prog : Program}
    (h : parse stmts = .ok prog) :
    ∃ st, parseSt stmts stmts.length = .ok st ∧ prog.insts = st.insts ∧
      Inv stmts stmts.length st := by
  unfold parse at h
  cases hp : parseList stmts initPState with
  | error e => rw [hp] at h; simp at h
  | ok stF =>
    rw [hp] at h
    have hprog : prog = ⟨stF.insts, stF.subs⟩ := (Except.ok.inj h).symm
    have hfin : parseSt stmts stmts.length = .ok stF := by
      unfold parseSt
      rw [List.take_length]
      exact hp
    exact ⟨stF, hfin, by rw [hprog], parse_inv_at stmts.length le_rfl hfin⟩

/-- Claim C5: in every `Program` the compiler returns, each structurally
matched block opener (matching computed by the pending-block discipline:
`ElIf`/`Else`/`End` close the top pending entry, so an `If`/`ElIf` is
closed by its next branch or its `End`, and `Sub`/`While`/`Else` by their
`End`) carries, at instruction index `position + 1`, its opener
instruction patched with exactly the non-negative instruction-count
distance `closer - opener`; moreover at every intermediate compilation
prefix the offset field is 0 strictly before the closer is compiled and
the patched distance afterwards — it is written exactly once, when the
closer is compiled. -/
theorem C5_offsets (stmts : List Stmt) (prog : Program)
    (h : parse stmts = .ok prog) (p q : Nat)
    (hm : (p, q) ∈ (scanAt stmts stmts.length).matched) :
    ∃ s, stmts.get? p = some s ∧ s.isOpener = true ∧ p < q ∧
      q < stmts.length ∧
      prog.insts.get? (p + 1) = some (openInstOff s (q - p)) ∧
      (∀ k st, k ≤ stmts.length → parseSt stmts k = .ok st →
        st.insts.get? (p + 1) =
          if p < k then some (openInstOff s (if q < k then q - p else 0))
          else none) := by
  obtain ⟨stF, hfin, hpin, hinvF⟩ := parse_final h
  obtain ⟨s, hs, hop, hget⟩ := hinvF.2.2.2 (p, q) hm
  have hscl := (scan_inv stmts stmts.length).2.2.1 (p, q) hm
  refine ⟨s, hs, hop, hscl.1, hscl.2.1, by rw [hpin]; exact hget, ?_⟩
  intro k st hk hst
  have hinvK := parse_inv_at k hk hst
  by_cases hp : p < k
  · rw [if_pos hp]
    by_cases hq2 : q < k
    · rw [if_pos hq2]
      have hclose := matched_at_close stmts stmts.length (p, q) hm
      have hmk : (p, q) ∈ (scanAt stmts k).matched :=
        matched_mono stmts (by omega) _ hclose.2
      obtain ⟨s0, hs0, hop0, hget0⟩ := hinvK.2.2.2 (p, q) hmk
      have hseq : s0 = s := by
        rw [hs0] at hs
        exact Option.some.inj hs
      rw [← hseq]
      exact hget0
    · rw [if_neg hq2]
      have hpend := opener_pending_at_close stmts stmts.length (p, q) hm
      have hpq_mem : p ∈ (scanAt stmts q).stack := by
        cases hstq : (scanAt stmts q).stack with
        | nil => rw [hstq] at hpend; simp at hpend
        | cons a rest =>
          rw [hstq] at hpend
          simp only [List.head?_cons, Option.some.injEq] at hpend
          rw [hpend]
          exact List.mem_cons_self _ _
      have hpk : p ∈ (scanAt stmts k).stack :=
        stack_persist stmts hpq_mem hp (by omega)
      have hmem2 : p + 1 ∈ st.stack.map WaitsEnd.index := by
        rw [hinvK.2.1]
        exact List.mem_map_of_mem _ hpk
      obtain ⟨e, he, heidx⟩ := List.mem_map.mp hmem2
      obtain ⟨s0, hs0, hop0, hkind0, hget0⟩ := hinvK.2.2.1 e he
      rw [heidx] at hget0
      rw [heidx] at hs0
      simp only [Nat.add_sub_cancel] at hs0
      have hseq : s0 = s := by
        rw [hs0] at hs
        exact Option.some.inj hs
      rw [← hseq]
      exact hget0
  · rw [if_neg hp]
    apply List.get?_eq_none.mpr
    rw [hinvK.1]
    omega

/-- Witness for C5: the chain `if; elif; else; end` compiles with the
`If` patched to reach the `ElIf` at distance 1. -/
theorem C5_offsets_witness :
    parse [Stmt.if_ cmp01, Stmt.elif cmp01, Stmt.else_, Stmt.end_] =
      .ok ⟨[.ill, .if_ cmp01 1, .elif cmp01 1, .else_ 1, .end_], []⟩ ∧
    (Program.mk [.ill, .if_ cmp01 1, .elif cmp01 1, .else_ 1, .end_]
      []).insts.get? 1 = some (openInstOff (Stmt.if_ cmp01) 1) := by
  refine ⟨rfl, ?_⟩
  obtain ⟨s, hs, hop, hpq, hqlen, hget, htime⟩ :=
    C5_offsets [Stmt.if_ cmp01, Stmt.elif cmp01, Stmt.else_, Stmt.end_]
      ⟨[.ill, .if_ cmp01 1, .elif cmp01 1, .else_ 1, .end_], []⟩ rfl 0 1
      (by decide)
  have hseq : Stmt.if_ cmp01 = s := by simpa using hs
  rw [hseq]
  exact hget

/-- Claim C10: the compiler accepts an input whose pending-block stack is
non-empty at end of input — an unclosed `Sub`/`While`/`If`/`ElIf`/`Else`
is not a compile error (two concrete programs are accepted below) — and
every opener still pending at end of input is left in the `Program` with
its offset field still 0. -/
theorem C10_unclosed_openers :
    parse [Stmt.sub "A"] = .ok ⟨[.ill, .sub "A" 0], [("A", 1)]⟩ ∧
    parse [Stmt.if_ cmp01, Stmt.elif cmp01] =
      .ok ⟨[.ill, .if_ cmp01 1, .elif cmp01 0], []⟩ ∧
    ∀ (stmts : List Stmt) (prog : Program), parse stmts = .ok prog →
      ∀ p, p ∈ (scanAt stmts stmts.length).stack →
        ∃ s, stmts.get? p = some s ∧ s.isOpener = true ∧
          prog.insts.get? (p + 1) = some (openInstOff s 0) := by
  refine ⟨rfl, rfl, ?_⟩
  intro stmts prog h p hp
  obtain ⟨stF, hfin, hpin, hinvF⟩ := parse_final h
  have hmem2 : p + 1 ∈ stF.stack.map WaitsEnd.index := by
    rw [hinvF.2.1]
    exact List.mem_map_of_mem _ hp
  obtain ⟨e, he, heidx⟩ := List.mem_map.mp hmem2
  obtain ⟨s0, hs0, hop0, hkind0, hget0⟩ := hinvF.2.2.1 e he
  rw [heidx] at hget0 hs0
  simp only [Nat.add_sub_cancel] at hs0
  exact ⟨s0, hs0, hop0, by rw [hpin]; exact hget0⟩

/-- Witness for C10: the unclosed `sub A` is left at index 1 with offset
0. -/
theorem C10_unclosed_openers_witness :
    (Program.mk [.ill, .sub "A" 0] [("A", 1)]).insts.get? 1 =
      some (openInstOff (Stmt.sub "A") 0) := by
  obtain ⟨s, hs, hop, hget⟩ :=
    C10_unclosed_openers.2.2 [Stmt.sub "A"] ⟨[.ill, .sub "A" 0], [("A", 1)]⟩
      rfl 0 (by decide)
  have hseq : Stmt.sub "A" = s := by simpa using hs
  rw [hseq]
  exact hget

/-- Witness for C8: `MAX + 1` overflows (never wraps), and `3 + x` with
`x` bound to 4 evaluates to 7. -/
theorem C8_eval_exact_witness :
    Expr.eval (.trueExpr (.num USIZE_MAX) .add (.identOrNum (.num 1)))
      [] = .error .overFlow ∧
    Expr.eval (.trueExpr (.num 3) .add (.identOrNum (.ident "x")))
      [("x", ⟨4, true⟩)] = .ok 7 :=
  ⟨((C8_eval_exact (.trueExpr (.num USIZE_MAX) .add (.identOrNum (.num 1)))
      [] (by decide) (by decide)).2.1 (by decide)).mpr (by decide),
   by
    have := (C8_eval_exact (.trueExpr (.num 3) .add (.identOrNum (.ident "x")))
      [("x", ⟨4, true⟩)] (by decide) (by decide)).2.2 (by decide) (by decide)
    simpa using this⟩

/-! ### Character and vocabulary lemmas for the lexer -/

/-- `Char.ofNat` in the uppercase-to-lowercase shift range. -/
theorem char_toNat_ofNat_add32 {n : Nat} (h1 : 65 ≤ n) (h2 : n ≤ 90) :
    (Char.ofNat (n + 32)).toNat = n + 32 := by
  unfold Char.ofNat
  rw [dif_pos (by left; omega)]
  simp [Char.toNat, Char.ofNatAux, UInt32.toNat, BitVec.toNat_ofNatLt]

/-- `Char.toLower` either shifts an uppercase ASCII letter down by 32 or
leaves the character unchanged. -/
theorem toLower_toNat (c : Char) :
    ((65 ≤ c.toNat ∧ c.toNat ≤ 90) ∧ (c.toLower).toNat = c.toNat + 32) ∨
    (¬(65 ≤ c.toNat ∧ c.toNat ≤ 90) ∧ c.toLower = c) := by
  unfold Char.toLower
  by_cases h : 65 ≤ c.toNat ∧ c.toNat ≤ 90
  · left
    refine ⟨h, ?_⟩
    rw [if_pos ⟨h.1, h.2⟩]
    exact char_toNat_ofNat_add32 h.1 h.2
  · right
    refine ⟨h, ?_⟩
    rw [if_neg ?_]
    intro hc
    exact h ⟨hc.1, hc.2⟩

/-- A lowercase letter is fixed by `toLower`. -/
theorem lc_toLower_fix {c : Char} (h : isLcLetter c = true) : c.toLower = c := by
  have hb : 97 ≤ c.toNat ∧ c.toNat ≤ 122 := by
    simpa [isLcLetter] using h
  rcases toLower_toNat c with ⟨⟨h1, h2⟩, _⟩ | ⟨_, hfix⟩
  · omega
  · exact hfix

/-- A character whose `toLower` is a lowercase letter is that letter or
its uppercase form. -/
theorem cased_of_toLower_lc {c a : Char} (ha : isLcLetter a = true)
    (h : c.toLower = a) :
    (97 ≤ c.toNat ∧ c.toNat ≤ 122) ∨ (65 ≤ c.toNat ∧ c.toNat ≤ 90) := by
  rcases toLower_toNat c with ⟨hr, _⟩ | ⟨_, hfix⟩
  · exact Or.inr hr
  · left
    rw [hfix] at h
    subst h
    simpa [isLcLetter] using ha

/-- A cased ASCII letter is not a separator, is an identifier character,
and is not a digit. -/
theorem cased_props {c : Char}
    (h : (97 ≤ c.toNat ∧ c.toNat ≤ 122) ∨ (65 ≤ c.toNat ∧ c.toNat ≤ 90)) :
    is_sep c = false ∧ is_ident_char c = true ∧ c.isDigit = false := by
  have hb : 65 ≤ c.toNat := by rcases h with ⟨a, _⟩ | ⟨a, _⟩ <;> omega
  have hne : ∀ d : Char, d.toNat < 65 → ¬(c = d) := by
    intro d hd he
    rw [he] at hb
    omega
  have hw : c.isWhitespace = false := by
    simp only [Char.isWhitespace, Bool.or_eq_false_iff, decide_eq_false_iff_not]
    exact ⟨⟨⟨hne ' ' (by decide), hne '\t' (by decide)⟩, hne '\r' (by decide)⟩,
      hne '\n' (by decide)⟩
  refine ⟨?_, ?_, ?_⟩
  · simp only [is_sep, hw, Bool.false_or, beq_eq_false_iff_ne, ne_eq]
    exact hne ';' (by decide)
  · simp only [is_ident_char, hw, Bool.not_false, Bool.true_and,
      Bool.not_eq_true']
    simp only [RESERVED_CHARS, List.contains_cons, Bool.or_eq_false_iff,
      beq_eq_false_iff_ne, ne_eq, List.contains_nil]
    exact ⟨hne '+' (by decide), hne '-' (by decide), hne '*' (by decide),
      hne '/' (by decide), hne '%' (by decide), hne '"' (by decide),
      hne '<' (by decide), hne '>' (by decide), hne '!' (by decide),
      hne '=' (by decide), hne ';' (by decide), hne ',' (by decide), trivial⟩
  · simp only [Char.isDigit, Bool.and_eq_false_iff, decide_eq_false_iff_not]
    right
    intro hle
    have h2 : c.toNat ≤ 57 := hle
    omega

/-- The lowercase form of a cased letter is in the lowercase range. -/
theorem toLower_cased_range {c : Char}
    (h : (97 ≤ c.toNat ∧ c.toNat ≤ 122) ∨ (65 ≤ c.toNat ∧ c.toNat ≤ 90)) :
    97 ≤ (c.toLower).toNat ∧ (c.toLower).toNat ≤ 122 := by
  rcases toLower_toNat c with ⟨⟨h1, h2⟩, heq⟩ | ⟨hn, hfix⟩
  · omega
  · rw [hfix]
    rcases h with hh | hh
    · exact hh
    · exact absurd ⟨hh.1, hh.2⟩ hn

/-- Decomposing `is_item` on cons cells. -/
theorem is_item_cons {a b : Char} {w vs : List Char}
    (h : is_item (a :: w) (b :: vs) = true) :
    a.toLower = b.toLower ∧ is_item w vs = true := by
  simp [is_item] at h ⊢
  exact ⟨h.2.1, h.1, h.2.2⟩

/-- Pointwise consequence of a case-insensitive prefix match. -/
theorem is_item_get {w vs : List Char} (h : is_item w vs = true) :
    ∀ i a, w.get? i = some a →
      ∃ b, vs.get? i = some b ∧ a.toLower = b.toLower := by
  induction w generalizing vs with
  | nil => intro i a ha; simp at ha
  | cons x w ih =>
    cases vs with
    | nil => simp [is_item] at h
    | cons y vs =>
      obtain ⟨hxy, hrest⟩ := is_item_cons h
      intro i a ha
      cases i with
      | zero =>
        simp only [List.get?_cons_zero, Option.some.injEq] at ha
        subst ha
        exact ⟨y, rfl, hxy⟩
      | succ i =>
        simp only [List.get?_cons_succ] at ha ⊢
        exact ih hrest i a ha

/-- A prefix match is no longer than the source slice. -/
theorem is_item_len {w vs : List Char} (h : is_item w vs = true) :
    w.length ≤ vs.length := by
  simp [is_item] at h
  exact h.1

/-- A word that cannot match: its first character is below the letter
range while the source's first character lowercases into it. -/
theorem not_is_item_of_low {c b : Char} {w vs : List Char}
    (hw : w.get? 0 = some c) (hlow : c.toNat < 65)
    (hvs : vs.get? 0 = some b) (hb : 97 ≤ (b.toLower).toNat) :
    is_item w vs = false := by
  cases h : is_item w vs with
  | false => rfl
  | true =>
    obtain ⟨b2, hb2, hcb⟩ := is_item_get h 0 c hw
    rw [hvs] at hb2
    obtain rfl : b = b2 := Option.some.inj hb2
    have hcfix : c.toLower = c := by
      rcases toLower_toNat c with ⟨⟨h1, _⟩, _⟩ | ⟨_, hfix⟩
      · omega
      · exact hfix
    rw [hcfix] at hcb
    rw [← hcb] at hb
    omega

/-- At most one reserved spelling can match-with-separator at a given scan
position: a shorter match would be followed by a letter of the longer one,
which is not a separator. -/
theorem matchesWithSep_unique_chars {vs w1 w2 : List Char}
    (hl1 : w1.all isLcLetter = true) (hl2 : w2.all isLcLetter = true)
    (h1 : matchesWithSep w1 vs = true) (h2 : matchesWithSep w2 vs = true) :
    w1 = w2 := by
  wlog hle : w1.length ≤ w2.length generalizing w1 w2
  · exact (this hl2 hl1 h2 h1 (by omega)).symm
  obtain ⟨hi1, hs1⟩ : is_item w1 vs = true ∧ sepAfter w1.length vs = true := by
    simpa [matchesWithSep] using h1
  obtain ⟨hi2, hs2⟩ : is_item w2 vs = true ∧ sepAfter w2.length vs = true := by
    simpa [matchesWithSep] using h2
  have hpref : ∀ i a1, w1.get? i = some a1 → w2.get? i = some a1 := by
    intro i a1 ha1
    have hi_lt : i < w1.length := (List.get?_eq_some.mp ha1).1
    obtain ⟨b, hb, hab⟩ := is_item_get hi1 i a1 ha1
    obtain ⟨a2, ha2⟩ : ∃ a2, w2.get? i = some a2 := by
      cases hg : w2.get? i with
      | none =>
        have := List.get?_eq_none.mp hg
        omega
      | some a2 => exact ⟨a2, rfl⟩
    obtain ⟨b2, hb2, hab2⟩ := is_item_get hi2 i a2 ha2
    rw [hb] at hb2
    obtain rfl : b = b2 := Option.some.inj hb2
    have hlc1 : isLcLetter a1 = true :=
      List.all_eq_true.mp hl1 a1 (List.get?_mem ha1)
    have hlc2 : isLcLetter a2 = true :=
      List.all_eq_true.mp hl2 a2 (List.get?_mem ha2)
    have heq : a1 = a2 := by
      have e1 := lc_toLower_fix hlc1
      have e2 := lc_toLower_fix hlc2
      rw [← e1, ← e2, hab, hab2]
    rw [ha2, heq]
  rcases Nat.lt_or_ge w1.length w2.length with hlt | hge
  · exfalso
    have hlen2 : w2.length ≤ vs.length := is_item_len hi2
    have hneq : w1.length ≠ vs.length := by omega
    have hsep : ∃ cch, vs.get? w1.length = some cch ∧ is_sep cch = true := by
      simp only [sepAfter, Bool.or_eq_true, beq_iff_eq] at hs1
      rcases hs1 with he | hmatch
      · exact absurd he hneq
      · cases hg : vs.get? w1.length with
        | none => rw [hg] at hmatch; simp at hmatch
        | some cch => rw [hg] at hmatch; exact ⟨cch, rfl, hmatch⟩
    obtain ⟨cch, hcch, hsepc⟩ := hsep
    obtain ⟨a2, ha2⟩ : ∃ a2, w2.get? w1.length = some a2 := by
      cases hg : w2.get? w1.length with
      | none =>
        have := List.get?_eq_none.mp hg
        omega
      | some a2 => exact ⟨a2, rfl⟩
    obtain ⟨b2, hb2, hab2⟩ := is_item_get hi2 _ a2 ha2
    rw [hcch] at hb2
    obtain rfl : cch = b2 := Option.some.inj hb2
    have hlc2 : isLcLetter a2 = true :=
      List.all_eq_true.mp hl2 a2 (List.get?_mem ha2)
    have e2 := lc_toLower_fix hlc2
    have hct : cch.toLower = a2 := by rw [← hab2, e2]
    have hcased := cased_of_toLower_lc hlc2 hct
    have := (cased_props hcased).1
    rw [this] at hsepc
    exact Bool.noConfusion hsepc
  · have hlen : w1.length = w2.length := by omega
    apply List.ext_get?
    intro n
    by_cases hn : n < w1.length
    · obtain ⟨a1, ha1⟩ : ∃ a1, w1.get? n = some a1 := by
        cases hg : w1.get? n with
        | none =>
          have := List.get?_eq_none.mp hg
          omega
        | some a1 => exact ⟨a1, rfl⟩
      rw [ha1, hpref n a1 ha1]
    · rw [List.get?_eq_none.mpr (by omega), List.get?_eq_none.mpr (by omega)]

/-- `find?` returns the unique satisfying element. -/
theorem find?_eq_some_of_unique {α : Type} {p : α → Bool} {l : List α} {a : α}
    (hmem : a ∈ l) (hpa : p a = true)
    (huniq : ∀ b ∈ l, p b = true → b = a) :
    l.find? p = some a := by
  induction l with
  | nil => simp at hmem
  | cons x l ih =>
    cases hx : p x with
    | true =>
      have hxa : x = a := huniq x (List.mem_cons_self _ _) hx
      rw [List.find?_cons_of_pos _ hx, hxa]
    | false =>
      rcases List.mem_cons.mp hmem with rfl | hmem2
      · rw [hpa] at hx
        exact Bool.noConfusion hx
      · rw [List.find?_cons_of_neg _ (by simp [hx])]
        exact ih hmem2 fun b hb hpb => huniq b (List.mem_cons_of_mem _ hb) hpb

/-- Reserved spellings cannot match two ways at one position. -/
theorem vocab_match_unique {vs : List Char} {p q : String × Item}
    (hp : p ∈ vocabStrings) (hq : q ∈ vocabStrings)
    (hmp : matchesWithSep p.1.data vs = true)
    (hmq : matchesWithSep q.1.data vs = true) : p = q := by
  have hwf : ∀ r ∈ vocabStrings, r.1.data.all isLcLetter = true := by decide
  have hdata : p.1.data = q.1.data :=
    matchesWithSep_unique_chars (hwf p hp) (hwf q hq) hmp hmq
  have hstr : p.1 = q.1 := by
    have := congrArg String.mk hdata
    simpa using this
  have hkey : ∀ r ∈ vocabStrings, ∀ r2 ∈ vocabStrings,
      r.1 = r2.1 → r.2 = r2.2 := by decide
  exact Prod.ext hstr (hkey p hp q hq hstr)

/-- Keywords are in the vocabulary. -/
theorem kw_mem (k : Keywords) (hk : k ∈ Keywords.DISCRIMINANTS) :
    (k.asStr, Item.key k) ∈ vocabStrings := by
  unfold vocabStrings
  exact List.mem_append_left _
    (List.mem_append_right _ (List.mem_map_of_mem _ hk))

/-- Instruction words are in the vocabulary. -/
theorem inst_mem (i : Insts) (hi : i ∈ Insts.DISCRIMINANTS) :
    (i.asStr, Item.inst i) ∈ vocabStrings := by
  unfold vocabStrings
  exact List.mem_append_right _ (List.mem_map_of_mem _ hi)

/-- Claim C9: a reserved word (keyword or instruction word, including the
irregular plural spellings) is lexed as its keyword/instruction token,
case-insensitively, if and only if the occurrence is immediately followed
by whitespace, `;`, or the end of the line slice; and an occurrence that
merely begins (case-insensitively) with a reserved word while no reserved
spelling matches with a following separator is lexed as a single
identifier token — the maximal identifier-character run ("bed" is an
identifier, not the keyword "be"). Concrete instances at the `lex` level
close the claim. -/
theorem C9_reserved_words (vs : List Char) :
    (∀ p ∈ vocabStrings, matchesWithSep p.1.data vs = true →
      scanWord vs = some (p.2, p.1.length)) ∧
    (isReservedScan (scanWord vs) = true →
      ∃ p ∈ vocabStrings, matchesWithSep p.1.data vs = true) ∧
    ((∀ p ∈ vocabStrings, matchesWithSep p.1.data vs = false) →
      ∀ p0 ∈ vocabStrings, is_item p0.1.data vs = true →
      scanWord vs = some (.ident (vs.takeWhile is_ident_char).asString,
        (vs.takeWhile is_ident_char).length)) ∧
    lex "bed" = .ok ⟨["bed"], [⟨⟨1, 1⟩, .ident "bed"⟩]⟩ ∧
    lex "BE;" = .ok ⟨["BE;"], [⟨⟨1, 1⟩, .key .be⟩, ⟨⟨1, 3⟩, .semi⟩]⟩ ∧
    lex "enD while" =
      .ok ⟨["enD while"], [⟨⟨1, 1⟩, .inst .end_⟩, ⟨⟨1, 5⟩, .inst .while_⟩]⟩ := by
  refine ⟨?_, ?_, ?_, by decide, by decide, by decide⟩
  · -- a separator-followed reserved spelling is lexed as its token
    intro p hp hm
    have huniq : ∀ q ∈ vocabStrings, matchesWithSep q.1.data vs = true →
        q = p := fun q hq hmq => vocab_match_unique hq hp hmq hm
    unfold scanWord
    by_cases hd : (is_item "dices".data vs && sepAfter 5 vs) = true
    · have hpd : ("dices", Item.key .dice) = p :=
        huniq ("dices", .key .dice) (by decide) hd
      rw [if_pos hd, ← hpd]
      rfl
    · rw [if_neg hd]
      by_cases hf : (is_item "faces".data vs && sepAfter 5 vs) = true
      · have hpd : ("faces", Item.key .face) = p :=
          huniq ("faces", .key .face) (by decide) hf
        rw [if_pos hf, ← hpd]
        rfl
      · rw [if_neg hf]
        have hp2 := hp
        simp only [vocabStrings, List.mem_append, List.mem_map,
          List.mem_cons, List.mem_singleton,
          List.not_mem_nil, or_false] at hp2
        rcases hp2 with (hfirst | ⟨k, hkmem, hkeq⟩) | ⟨i, himem, hieq⟩
        · rcases hfirst with h | h
          · rw [h] at hm
            exact absurd hm hd
          · rw [h] at hm
            exact absurd hm hf
        · subst hkeq
          have hm2 : matchesWithSep k.asStr.data vs = true := hm
          have hkchk : Keywords.check vs = some k := by
            apply find?_eq_some_of_unique hkmem hm2
            intro b hb hpb
            have h2 := huniq (b.asStr, .key b) (kw_mem b hb) hpb
            have h3 := congrArg Prod.snd h2
            simp only [Item.key.injEq] at h3
            exact h3
          rw [hkchk]
        · subst hieq
          have hm2 : matchesWithSep i.asStr.data vs = true := hm
          have hkchk : Keywords.check vs = none := by
            apply List.find?_eq_none.mpr
            intro b hb
            simp only [Bool.not_eq_true]
            cases hpb : (is_item b.asStr.data vs &&
                sepAfter b.asStr.data.length vs) with
            | false => rfl
            | true =>
              have h2 := huniq (b.asStr, .key b) (kw_mem b hb) hpb
              have h3 := congrArg Prod.snd h2
              simp at h3
          rw [hkchk]
          have hichk : Insts.check vs = some i := by
            apply find?_eq_some_of_unique himem hm2
            intro b hb hpb
            have h2 := huniq (b.asStr, .inst b) (inst_mem b hb) hpb
            have h3 := congrArg Prod.snd h2
            simp only [Item.inst.injEq] at h3
            exact h3
          rw [hichk]
  · -- a reserved token implies a separator-followed reserved spelling
    intro hres
    unfold scanWord at hres
    by_cases hd : (is_item "dices".data vs && sepAfter 5 vs) = true
    · exact ⟨("dices", .key .dice), by decide, hd⟩
    · rw [if_neg hd] at hres
      by_cases hf : (is_item "faces".data vs && sepAfter 5 vs) = true
      · exact ⟨("faces", .key .face), by decide, hf⟩
      · rw [if_neg hf] at hres
        cases hk : Keywords.check vs with
        | some res =>
          have hk2 : Keywords.DISCRIMINANTS.find? (fun i =>
              is_item i.asStr.data vs &&
                sepAfter i.asStr.data.length vs) = some res := hk
          have hraw := List.find?_some hk2
          have hm3 : matchesWithSep res.asStr.data vs = true := hraw
          exact ⟨(res.asStr, .key res),
            kw_mem res (List.mem_of_find?_eq_some hk2), hm3⟩
        | none =>
          rw [hk] at hres
          cases hi : Insts.check vs with
          | some res =>
            have hi2 : Insts.DISCRIMINANTS.find? (fun i =>
                is_item i.asStr.data vs &&
                  sepAfter i.asStr.data.length vs) = some res := hi
            have hraw := List.find?_some hi2
            have hm3 : matchesWithSep res.asStr.data vs = true := hraw
            exact ⟨(res.asStr, .inst res),
              inst_mem res (List.mem_of_find?_eq_some hi2), hm3⟩
          | none =>
            rw [hi] at hres
            exfalso
            cases ha : AriOps.check vs with
            | some res => rw [ha] at hres; simp [isReservedScan] at hres
            | none =>
              rw [ha] at hres
              cases hr : RelOps.check vs with
              | some res => rw [hr] at hres; simp [isReservedScan] at hres
              | none =>
                rw [hr] at hres
                cases vs with
                | nil => simp [isReservedScan] at hres
                | cons c rest =>
                  by_cases hdg : c.isDigit = true
                  · simp [hdg, isReservedScan] at hres
                  · by_cases hic : is_ident_char c = true <;>
                      simp [hdg, hic, isReservedScan] at hres
  · -- no separator-followed match, but begins with a reserved word:
    -- a single identifier token
    intro hnone p0 hp0 hi0
    have hwf : ∀ r ∈ vocabStrings,
        r.1.data ≠ [] ∧ r.1.data.all isLcLetter = true := by decide
    obtain ⟨hne0, hlc0⟩ := hwf p0 hp0
    obtain ⟨c0, hc0⟩ : ∃ c0, p0.1.data.get? 0 = some c0 := by
      cases hg : p0.1.data.get? 0 with
      | none =>
        have hlen0 := List.get?_eq_none.mp hg
        have h0 : p0.1.data.length = 0 := by omega
        exact absurd (List.length_eq_zero.mp h0) hne0
      | some c0 => exact ⟨c0, rfl⟩
    obtain ⟨b, hb, hcb⟩ := is_item_get hi0 0 c0 hc0
    have hlcc0 : isLcLetter c0 = true :=
      List.all_eq_true.mp hlc0 c0 (List.get?_mem hc0)
    have hcfix := lc_toLower_fix hlcc0
    have hbt : b.toLower = c0 := by
      rw [← hcb]
      exact hcfix
    have hbcased := cased_of_toLower_lc hlcc0 hbt
    obtain ⟨hbsep, hbident, hbdigit⟩ := cased_props hbcased
    have hblow : 97 ≤ (b.toLower).toNat := (toLower_cased_range hbcased).1
    obtain ⟨vrest, rfl⟩ : ∃ vrest, vs = b :: vrest := by
      cases vs with
      | nil => simp at hb
      | cons c rest =>
        simp only [List.get?_cons_zero, Option.some.injEq] at hb
        exact ⟨rest, by rw [hb]⟩
    have hfalse : ∀ q ∈ vocabStrings,
        matchesWithSep q.1.data (b :: vrest) = true → False := by
      intro q hq hmq
      have h3 := hnone q hq
      rw [hmq] at h3
      exact Bool.noConfusion h3
    unfold scanWord
    have hd : ¬((is_item "dices".data (b :: vrest) &&
        sepAfter 5 (b :: vrest)) = true) := by
      intro hcontra
      exact hfalse ("dices", .key .dice) (by decide) hcontra
    rw [if_neg hd]
    have hf : ¬((is_item "faces".data (b :: vrest) &&
        sepAfter 5 (b :: vrest)) = true) := by
      intro hcontra
      exact hfalse ("faces", .key .face) (by decide) hcontra
    rw [if_neg hf]
    have hk : Keywords.check (b :: vrest) = none := by
      apply List.find?_eq_none.mpr
      intro kk hkk
      simp only [Bool.not_eq_true]
      cases hpb : (is_item kk.asStr.data (b :: vrest) &&
          sepAfter kk.asStr.data.length (b :: vrest)) with
      | false => rfl
      | true => exact ((hfalse (kk.asStr, .key kk) (kw_mem kk hkk) hpb)).elim
    rw [hk]
    have hi : Insts.check (b :: vrest) = none := by
      apply List.find?_eq_none.mpr
      intro kk hkk
      simp only [Bool.not_eq_true]
      cases hpb : (is_item kk.asStr.data (b :: vrest) &&
          sepAfter kk.asStr.data.length (b :: vrest)) with
      | false => rfl
      | true => exact ((hfalse (kk.asStr, .inst kk) (inst_mem kk hkk) hpb)).elim
    rw [hi]
    have ha : AriOps.check (b :: vrest) = none := by
      apply List.find?_eq_none.mpr
      intro op hop
      simp only [Bool.not_eq_true]
      obtain ⟨cop, hcop, hcoplow⟩ :
          ∃ c, op.asStr.data.get? 0 = some c ∧ c.toNat < 65 := by
        cases op <;> exact ⟨_, rfl, by decide⟩
      exact not_is_item_of_low hcop hcoplow rfl hblow
    rw [ha]
    have hr : RelOps.check (b :: vrest) = none := by
      apply List.find?_eq_none.mpr
      intro op hop
      simp only [Bool.not_eq_true]
      obtain ⟨cop, hcop, hcoplow⟩ :
          ∃ c, op.asStr.data.get? 0 = some c ∧ c.toNat < 65 := by
        cases op <;> exact ⟨_, rfl, by decide⟩
      exact not_is_item_of_low hcop hcoplow rfl hblow
    rw [hr]
    simp [hbdigit, hbident]

/-- Witness for C9: "print" at end of slice is the Print instruction;
"Be;" matches case-insensitively before the separator `;`; "bed" (no
reserved spelling followed by a separator, but beginning with the
reserved word "be") is a single identifier. -/
theorem C9_reserved_words_witness :
    scanWord "print".data = some (.inst .print, 5) ∧
    scanWord "Be;x".data = some (.key .be, 2) ∧
    scanWord "bed".data =
      some (.ident ("bed".data.takeWhile is_ident_char).asString,
        ("bed".data.takeWhile is_ident_char).length) :=
  ⟨(C9_reserved_words "print".data).1 ("print", .inst .print)
      (by decide) (by decide),
   (C9_reserved_words "Be;x".data).1 ("be", .key .be) (by decide) (by decide),
   (C9_reserved_words "bed".data).2.2.1 (by decide) ("be", .key .be)
      (by decide) (by decide)⟩

end Novelint
